import Mathlib

/-!
Verification of the response-normalization core and the static example
catalog of the image-to-code generation backend.

Python text is modelled as `List Char` (a Python `str` is a sequence of
code points).  Python dicts are modelled as insertion-ordered association
lists whose insert operation updates in place (CPython dict semantics).
The JSON parser models `json.loads`; numeric literals are kept as their
source text because the normalizer never inspects numeric values.
-/

namespace SpecProof

/-- Python strings are sequences of code points. -/
abbrev Chars := List Char

/-- Convert a Lean string literal to the `Chars` model. -/
def chars (s : String) : Chars := s.toList

/-- The backtick character (code point 96), the fence-marker character. -/
def backtick : Char := Char.ofNat 96

/-- The opening-brace character (code point 123). -/
def lbrace : Char := Char.ofNat 123

/-- The closing-brace character (code point 125). -/
def rbrace : Char := Char.ofNat 125

/-- Characters stripped by Python `str.strip()` (ASCII whitespace). -/
def isPySpace (c : Char) : Bool :=
  c = ' ' ∨ c = '\t' ∨ c = '\n' ∨ c = '\r' ∨ c = Char.ofNat 11 ∨ c = Char.ofNat 12

/-- JSON inter-token whitespace accepted by `json.loads`. -/
def isJsonWs (c : Char) : Bool :=
  c = ' ' ∨ c = '\t' ∨ c = '\n' ∨ c = '\r'

/-- Python `str.strip()`: drop leading and trailing whitespace. -/
def pyStrip (l : Chars) : Chars :=
  ((l.dropWhile isPySpace).reverse.dropWhile isPySpace).reverse

/-- Python `str.startswith(p)`. -/
def pyStartsWith (l p : Chars) : Bool := decide (l.take p.length = p)

/-- Python `str.endswith(s)`. -/
def pyEndsWith (l s : Chars) : Bool := pyStartsWith l.reverse s.reverse

/-- Python slicing `l[n:]`. -/
def pyDrop (l : Chars) (n : Nat) : Chars := l.drop n

/-- Python slicing `l[:-n]` for `n ≤ len l`. -/
def pyDropRight (l : Chars) (n : Nat) : Chars := l.take (l.length - n)

/-- Skip JSON inter-token whitespace. -/
def skipWs (l : Chars) : Chars := l.dropWhile isJsonWs

/-- JSON values, as produced by `json.loads`.  Objects are insertion-ordered
key-value lists (CPython dicts); numbers keep their literal text since no
normalization step inspects a numeric value. -/
inductive Json where
  | null : Json
  | bool (b : Bool) : Json
  | num (lit : Chars) : Json
  | str (s : Chars) : Json
  | arr (elems : List Json) : Json
  | obj (members : List (Chars × Json)) : Json

/-- A Python dict with `Chars` keys, as an insertion-ordered entry list. -/
abbrev Dict (α : Type) := List (Chars × α)

/-- A parsed JSON object / the file map: dict from filename to value. -/
abbrev JDict := Dict Json

/-- Python `k in d` on a dict. -/
def dContains {α : Type} (m : Dict α) (k : Chars) : Bool :=
  m.any (fun kv => decide (kv.1 = k))

/-- Python `d.get(k)` / `d[k]`: first entry with the given key. -/
def dGet? {α : Type} (m : Dict α) (k : Chars) : Option α :=
  (m.find? (fun kv => decide (kv.1 = k))).map (·.2)

/-- Python `d[k] = v`: update the value in place if the key is present,
otherwise append a new entry (CPython dict insertion semantics). -/
def dInsert {α : Type} (m : Dict α) (k : Chars) (v : α) : Dict α :=
  if dContains m k then m.map (fun kv => if kv.1 = k then (k, v) else kv)
  else m ++ [(k, v)]

/-- The keys of a dict in iteration order (Python `d.keys()`). -/
def dKeys {α : Type} (m : Dict α) : List Chars := m.map (·.1)

/-- Hexadecimal digit test for `\uXXXX` escapes. -/
def isHexDigit (c : Char) : Bool :=
  c.isDigit ∨ ('a' ≤ c ∧ c ≤ 'f') ∨ ('A' ≤ c ∧ c ≤ 'F')

/-- Value of a hexadecimal digit. -/
def hexVal (c : Char) : Nat :=
  if c.isDigit then c.toNat - 48 else if 'a' ≤ c then c.toNat - 87 else c.toNat - 55

/-- Single-character JSON string escapes. -/
def escChar (c : Char) : Option Char :=
  if c = '"' ∨ c = '\\' ∨ c = '/' then some c
  else if c = 'b' then some (Char.ofNat 8)
  else if c = 'f' then some (Char.ofNat 12)
  else if c = 'n' then some '\n'
  else if c = 'r' then some '\r'
  else if c = 't' then some '\t'
  else none

/-- Parse the remainder of a JSON string after the opening quote.  Returns the
decoded contents and the input remaining after the closing quote.  Unescaped
control characters are rejected (strict mode of `json.loads`).  `\uXXXX`
escapes decode to the code point directly (surrogate-pair combination is not
modelled; no claim depends on it). -/
def parseStringRest : Nat → Chars → Option (Chars × Chars)
  | 0, _ => none
  | fuel+1, l =>
    match l with
    | [] => none
    | c :: rest =>
      if c = '"' then some ([], rest)
      else if c = '\\' then
        match rest with
        | [] => none
        | e :: rest2 =>
          if e = 'u' then
            match rest2 with
            | h1 :: h2 :: h3 :: h4 :: rest3 =>
              if isHexDigit h1 ∧ isHexDigit h2 ∧ isHexDigit h3 ∧ isHexDigit h4 then
                match parseStringRest fuel rest3 with
                | some (s, r) =>
                  some (Char.ofNat
                    (((hexVal h1 * 16 + hexVal h2) * 16 + hexVal h3) * 16 + hexVal h4) :: s, r)
                | none => none
              else none
            | _ => none
          else
            match escChar e with
            | some ec =>
              match parseStringRest fuel rest2 with
              | some (s, r) => some (ec :: s, r)
              | none => none
            | none => none
      else if c.toNat < 32 then none
      else
        match parseStringRest fuel rest with
        | some (s, r) => some (c :: s, r)
        | none => none

/-- Optional fraction part of a JSON number (`.` followed by digits). -/
def parseFracPart (r : Chars) : Option (Chars × Chars) :=
  match r with
  | [] => some ([], [])
  | c :: tl =>
    if c = '.' then
      let ds := tl.takeWhile Char.isDigit
      if ds.isEmpty then none
      else some (c :: ds, tl.dropWhile Char.isDigit)
    else some ([], r)

/-- Optional exponent part of a JSON number (`e`/`E`, optional sign, digits). -/
def parseExpPart (r : Chars) : Option (Chars × Chars) :=
  match r with
  | [] => some ([], [])
  | c :: tl =>
    if c = 'e' ∨ c = 'E' then
      let (sg, tl2) :=
        match tl with
        | [] => (([] : Chars), tl)
        | s :: tl' => if s = '+' ∨ s = '-' then ([s], tl') else (([] : Chars), tl)
      let ds := tl2.takeWhile Char.isDigit
      if ds.isEmpty then none
      else some (c :: (sg ++ ds), tl2.dropWhile Char.isDigit)
    else some ([], r)

/-- Parse a JSON number (the grammar of `json.loads`: optional minus, integer
part without leading zeros, optional fraction, optional exponent).  The value
keeps its literal text. -/
def parseNumber (l : Chars) : Option (Json × Chars) :=
  match l with
  | [] => none
  | c :: rest =>
    let p := if c = '-' then ([c], rest) else (([] : Chars), l)
    let ds := p.2.takeWhile Char.isDigit
    let r1 := p.2.dropWhile Char.isDigit
    if ds.isEmpty then none
    else if 1 < ds.length ∧ ds.head? = some '0' then none
    else
      match parseFracPart r1 with
      | none => none
      | some (fp, r2) =>
        match parseExpPart r2 with
        | none => none
        | some (ep, r3) => some (.num (p.1 ++ ds ++ fp ++ ep), r3)

/-- Literal token `true`. -/
def litTrue : Chars := chars "true"
/-- Literal token `false`. -/
def litFalse : Chars := chars "false"
/-- Literal token `null`. -/
def litNull : Chars := chars "null"
/-- Literal token `NaN` (accepted by `json.loads`). -/
def litNaN : Chars := chars "NaN"
/-- Literal token `Infinity` (accepted by `json.loads`). -/
def litInf : Chars := chars "Infinity"
/-- Literal token `-Infinity` (accepted by `json.loads`). -/
def litNegInf : Chars := chars "-Infinity"

mutual

/-- Parse one JSON value, returning it with the unconsumed remainder.
Fuelled recursion; the fuel provided by `jsonParse` always suffices since
every recursive call consumes at least one character first. -/
def parseValue : Nat → Chars → Option (Json × Chars)
  | 0, _ => none
  | fuel+1, l =>
    match skipWs l with
    | [] => none
    | c :: rest =>
      if c = lbrace then
        match skipWs rest with
        | [] => none
        | c2 :: rest2 =>
          if c2 = rbrace then some (.obj [], rest2) else parseMembers fuel rest []
      else if c = '[' then
        match skipWs rest with
        | [] => none
        | c2 :: rest2 =>
          if c2 = ']' then some (.arr [], rest2) else parseElements fuel rest []
      else if c = '"' then
        match parseStringRest fuel rest with
        | some (s, r) => some (.str s, r)
        | none => none
      else if pyStartsWith (c :: rest) litTrue then some (.bool true, (c :: rest).drop 4)
      else if pyStartsWith (c :: rest) litFalse then some (.bool false, (c :: rest).drop 5)
      else if pyStartsWith (c :: rest) litNull then some (.null, (c :: rest).drop 4)
      else if pyStartsWith (c :: rest) litNaN then some (.num litNaN, (c :: rest).drop 3)
      else if pyStartsWith (c :: rest) litNegInf then some (.num litNegInf, (c :: rest).drop 9)
      else if pyStartsWith (c :: rest) litInf then some (.num litInf, (c :: rest).drop 8)
      else parseNumber (c :: rest)

/-- Parse the members of a JSON object after its opening brace (non-empty
case), accumulating into a dict with CPython insert semantics, so a duplicate
key keeps its first position and the last value. -/
def parseMembers : Nat → Chars → JDict → Option (Json × Chars)
  | 0, _, _ => none
  | fuel+1, l, acc =>
    match skipWs l with
    | [] => none
    | c :: rest =>
      if c = '"' then
        match parseStringRest fuel rest with
        | none => none
        | some (k, r2) =>
          match skipWs r2 with
          | [] => none
          | c2 :: r3 =>
            if c2 = ':' then
              match parseValue fuel r3 with
              | none => none
              | some (v, r4) =>
                match skipWs r4 with
                | [] => none
                | c3 :: r5 =>
                  if c3 = ',' then parseMembers fuel r5 (dInsert acc k v)
                  else if c3 = rbrace then some (.obj (dInsert acc k v), r5)
                  else none
            else none
      else none

/-- Parse the elements of a JSON array after its opening bracket (non-empty
case). -/
def parseElements : Nat → Chars → List Json → Option (Json × Chars)
  | 0, _, _ => none
  | fuel+1, l, acc =>
    match parseValue fuel l with
    | none => none
    | some (v, r1) =>
      match skipWs r1 with
      | [] => none
      | c :: r2 =>
        if c = ',' then parseElements fuel r2 (acc ++ [v])
        else if c = ']' then some (.arr (acc ++ [v]), r2)
        else none

end

/-- `json.loads`: parse a complete document, allowing only trailing
whitespace. -/
def jsonParse (l : Chars) : Option Json :=
  match parseValue (l.length + 1) l with
  | some (j, rest) => if (skipWs rest).isEmpty then some j else none
  | none => none

/-- The opening fence marker with language tag recognized by the source. -/
def fenceJson : Chars := chars "```json"

/-- The bare fence marker. -/
def fence : Chars := chars "```"

/-- The fence-stripping step of `_parse_response` (source lines 305–312):
strip whitespace, drop a leading ```` ```json ````, drop a leading
```` ``` ````, drop a trailing ```` ``` ````, strip whitespace again. -/
def stripFences (text : Chars) : Chars :=
  let c0 := pyStrip text
  let c1 := if pyStartsWith c0 fenceJson then pyDrop c0 7 else c0
  let c2 := if pyStartsWith c1 fence then pyDrop c1 3 else c1
  let c3 := if pyEndsWith c2 fence then pyDropRight c2 3 else c2
  pyStrip c3

/-- Key `"analysis_summary"`. -/
def keySummary : Chars := chars "analysis_summary"
/-- Key `"generated_files"`. -/
def keyFiles : Chars := chars "generated_files"
/-- The canonical front-end entry-point key `"App.jsx"`. -/
def keyApp : Chars := chars "App.jsx"
/-- Key `"models.py"`. -/
def keyModels : Chars := chars "models.py"
/-- Key `"main.py"`. -/
def keyMain : Chars := chars "main.py"
/-- Key `"README.md"`. -/
def keyReadme : Chars := chars "README.md"

/-- The accepted entry-point name variants, in the order the source lists
them (source line 337). -/
def reactVariants : List Chars :=
  [chars "App.jsx", chars "App.tsx", chars "app.jsx", chars "app.tsx",
   chars "App.js", chars "app.js"]

/-- Placeholder inserted for a missing `App.jsx` (source line 353). -/
def placeholderApp : Chars :=
  chars "# App.jsx\n# File not generated by AI\n# Please check the AI response"
/-- Placeholder inserted for a missing `models.py` (source line 357). -/
def placeholderModels : Chars := chars "# SQLAlchemy models\n# File not generated by AI"
/-- Placeholder inserted for a missing `main.py` (source line 358). -/
def placeholderMain : Chars := chars "# FastAPI application\n# File not generated by AI"
/-- Placeholder inserted for a missing `README.md` (source line 359). -/
def placeholderReadme : Chars := chars "# README\n# File not generated by AI"

/-- The copy loop `for key, value in files_dict.items(): normalized[key] =
value` (source lines 328–331), building a fresh dict by insertion. -/
def pyCopy (m : JDict) : JDict :=
  m.foldl (fun acc kv => dInsert acc kv.1 kv.2) []

/-- The first key of the dict, in iteration order, that is an accepted
entry-point variant (the `for key in ...keys(): if key in [...]: break` scan,
source lines 334–340). -/
def findReactKey (m : JDict) : Option Chars :=
  (m.find? (fun kv => decide (kv.1 ∈ reactVariants))).map (·.1)

/-- Entry-point reconciliation (source lines 342–347): if a variant key was
found, differs from `App.jsx`, and `App.jsx` is absent, copy the variant's
content to `App.jsx`. -/
def reconcileReact (m : JDict) : JDict :=
  match findReactKey m with
  | none => m
  | some k =>
    if k ≠ keyApp then
      if ¬ dContains m keyApp then dInsert m keyApp ((dGet? m k).getD .null)
      else m
    else m

/-- One placeholder-insertion step: `if key not in m: m[key] = placeholder`. -/
def backStep (m : JDict) (k : Chars) (ph : Json) : JDict :=
  if ¬ dContains m k then dInsert m k ph else m

/-- Placeholder backfill (source lines 349–365): insert the fixed placeholder
for each critical key that is still absent, in source order `App.jsx`,
`models.py`, `main.py`, `README.md`; presence, not truthiness, gates the
insert. -/
def backfill (m : JDict) : JDict :=
  backStep (backStep (backStep (backStep m keyApp (.str placeholderApp))
    keyModels (.str placeholderModels)) keyMain (.str placeholderMain))
    keyReadme (.str placeholderReadme)

/-- The whole file-map normalization pipeline of `_parse_response`
(source lines 328–365). -/
def normalizeFiles (filesDict : JDict) : JDict :=
  backfill (reconcileReact (pyCopy filesDict))

/-- Modelled from the spec: the domain entity `AnalysisResult`
(`app/models/domain.py` is not in the source tree).  Per §3 it carries a
summary and a filename→content map; construction is a plain record with no
further behaviour. -/
structure AnalysisResult where
  summary : Json
  files : JDict

/-- The single exception kind `_parse_response` surfaces (`ValueError`); the
spec names it `MalformedResponse`. -/
inductive PyError where
  | valueError (msg : Chars)

/-- The exceptions arising inside the `try` block of `_parse_response`:
`json.JSONDecodeError` from `json.loads`, and `AttributeError` from calling
`.get`/`.items()` on a non-dict value.  Messages are abbreviated. -/
inductive PyExc where
  | jsonDecodeError (msg : Chars)
  | attributeError (msg : Chars)

/-- The fallback summary `f"Generated application based on: {description}"`
(source line 321). -/
def fallbackSummary (description : Chars) : Chars :=
  chars "Generated application based on: " ++ description

/-- Field extraction and normalization on the parsed JSON value (source
lines 320–372): `data.get` requires a dict, `files_dict.items()` requires a
dict; otherwise `AttributeError` is raised and later rewrapped. -/
def extractResult (data : Json) (description : Chars) : Except PyExc AnalysisResult :=
  match data with
  | .obj members =>
    let summary := (dGet? members keySummary).getD (.str (fallbackSummary description))
    match (dGet? members keyFiles).getD (.obj []) with
    | .obj filesDict => .ok ⟨summary, normalizeFiles filesDict⟩
    | _ => .error (.attributeError (chars "object has no attribute items"))
  | _ => .error (.attributeError (chars "object has no attribute get"))

/-- The body of the `try` block of `_parse_response`. -/
def parseResponseInner (responseText description : Chars) : Except PyExc AnalysisResult :=
  match jsonParse (stripFences responseText) with
  | none => .error (.jsonDecodeError (chars "Expecting value"))
  | some data => extractResult data description

/-- `AIService._parse_response` (source lines 292–381): any
`json.JSONDecodeError` is rewrapped as `ValueError("Invalid JSON response
from AI: ...")`, any other exception as `ValueError("Failed to parse AI
response: ...")`. -/
def parseResponse (responseText description : Chars) : Except PyError AnalysisResult :=
  match parseResponseInner responseText description with
  | .ok r => .ok r
  | .error (.jsonDecodeError m) =>
    .error (.valueError (chars "Invalid JSON response from AI: " ++ m))
  | .error (.attributeError m) =>
    .error (.valueError (chars "Failed to parse AI response: " ++ m))

/-- Whether a parsed JSON top-level value supports dict-style key lookup
(`.get`): in Python only a dict does. -/
def isObjJ : Json → Bool
  | .obj _ => true
  | _ => false

/-! ### Static example catalog (`ExampleService`)

The three fixtures' file contents are multi-hundred-line literal strings in
the source; they are abbreviated here to short distinct stand-ins, since
every claim about the catalog concerns only which keys and identifiers are
present, never the content text. -/

/-- Identifier `"food-pantry"`. -/
def idFoodPantry : Chars := chars "food-pantry"
/-- Identifier `"library"`. -/
def idLibrary : Chars := chars "library"
/-- Identifier `"clinic"`. -/
def idClinic : Chars := chars "clinic"

/-- The `"food-pantry"` fixture: summary and the four files `models.py`,
`main.py`, `App.jsx`, `README.md` in source order (contents abbreviated). -/
def foodPantryResult : AnalysisResult :=
  ⟨.str (chars "A Food Pantry Management System for tracking inventory, donations, and distributions."),
   [(keyModels, .str (chars "food-pantry models.py content")),
    (keyMain, .str (chars "food-pantry main.py content")),
    (keyApp, .str (chars "food-pantry App.jsx content")),
    (keyReadme, .str (chars "food-pantry README.md content"))]⟩

/-- The `"library"` fixture: same four keys in source order. -/
def libraryResult : AnalysisResult :=
  ⟨.str (chars "A Library Book Tracking System for managing book inventory, members, and loans."),
   [(keyModels, .str (chars "library models.py content")),
    (keyMain, .str (chars "library main.py content")),
    (keyApp, .str (chars "library App.jsx content")),
    (keyReadme, .str (chars "library README.md content"))]⟩

/-- The `"clinic"` fixture: same four keys in source order. -/
def clinicResult : AnalysisResult :=
  ⟨.str (chars "A Clinic Appointment Management System for scheduling appointments and managing patient records."),
   [(keyModels, .str (chars "clinic models.py content")),
    (keyMain, .str (chars "clinic main.py content")),
    (keyApp, .str (chars "clinic App.jsx content")),
    (keyReadme, .str (chars "clinic README.md content"))]⟩

/-- `ExampleService.EXAMPLES`: the fixed identifier → fixture dict, in source
order. -/
def EXAMPLES : Dict AnalysisResult :=
  [(idFoodPantry, foodPantryResult), (idLibrary, libraryResult), (idClinic, clinicResult)]

/-- `ExampleService.get_example`: look the identifier up in `EXAMPLES`,
raising `ValueError` (the spec's `NotFound` kind) when it is absent. -/
def getExample (exampleId : Chars) : Except PyError AnalysisResult :=
  match dGet? EXAMPLES exampleId with
  | some r => .ok r
  | none => .error (.valueError (chars "Example not found. Available examples: food-pantry, library, clinic"))

/-- `ExampleService.list_examples`: the identifiers in dict order. -/
def listExamples : List Chars := dKeys EXAMPLES

/-- The concrete raw model text of the spec's end-to-end example: the JSON
document with summary `"s"` and one generated file `app.jsx`, wrapped in a
```` ```json ```` fence. -/
def exampleRawText : Chars :=
  chars "```json\n\x7b\"analysis_summary\":\"s\",\"generated_files\":\x7b\"app.jsx\":\"code\"\x7d\x7d\n```"

/-- The concrete description of the spec's end-to-end example. -/
def exampleDescription : Chars := chars "A task tracker"

/-- A concrete raw text that parses to a JSON object whose
`generated_files` member is a number rather than a mapping. -/
def cexGeneratedFilesNumber : Chars := chars "\x7b\"generated_files\": 3\x7d"

/-! ### Dict lemmas -/

theorem dContains_iff_keys {α : Type} {m : Dict α} {k : Chars} :
    dContains m k = true ↔ k ∈ dKeys m := by
  unfold dContains dKeys
  rw [List.any_eq_true]
  constructor
  · rintro ⟨kv, hmem, hk⟩
    rw [List.mem_map]
    exact ⟨kv, hmem, by simpa using hk⟩
  · intro h
    rw [List.mem_map] at h
    obtain ⟨kv, hmem, hk⟩ := h
    exact ⟨kv, hmem, by simpa using hk⟩

theorem dContains_iff {α : Type} {m : Dict α} {k : Chars} :
    dContains m k = true ↔ ∃ v, (k, v) ∈ m := by
  unfold dContains
  rw [List.any_eq_true]
  constructor
  · rintro ⟨⟨k1, v1⟩, hmem, hk⟩
    simp only [decide_eq_true_eq] at hk
    exact ⟨v1, hk ▸ hmem⟩
  · rintro ⟨v, hmem⟩
    exact ⟨(k, v), hmem, by simp⟩

theorem dGet?_mem {α : Type} {m : Dict α} {k : Chars} {v : α}
    (h : dGet? m k = some v) : (k, v) ∈ m := by
  unfold dGet? at h
  cases hf : m.find? (fun kv => decide (kv.1 = k)) with
  | none => rw [hf] at h; simp at h
  | some kv =>
    rw [hf] at h
    have hm := List.mem_of_find?_eq_some hf
    have hp := List.find?_some hf
    cases kv with
    | mk k1 v1 =>
      simp at hp h
      subst hp; subst h; exact hm

theorem dContains_of_dGet? {α : Type} {m : Dict α} {k : Chars} {v : α}
    (h : dGet? m k = some v) : dContains m k = true :=
  dContains_iff.mpr ⟨v, dGet?_mem h⟩

theorem dGet?_isSome_of_dContains {α : Type} {m : Dict α} {k : Chars}
    (h : dContains m k = true) : ∃ v, dGet? m k = some v := by
  unfold dContains at h
  rw [List.any_eq_true] at h
  obtain ⟨kv, hmem, hk⟩ := h
  have : (m.find? (fun kv => decide (kv.1 = k))).isSome := by
    rw [List.find?_isSome]; exact ⟨kv, hmem, hk⟩
  cases hf : m.find? (fun kv => decide (kv.1 = k)) with
  | none => rw [hf] at this; simp at this
  | some kv' => exact ⟨kv'.2, by simp [dGet?, hf]⟩

theorem dGet?_eq_none_of_not_dContains {α : Type} {m : Dict α} {k : Chars}
    (h : dContains m k = false) : dGet? m k = none := by
  unfold dContains at h
  have hall : ∀ kv ∈ m, ¬ (decide (kv.1 = k) = true) := by
    intro kv hmem hkv
    have : m.any (fun kv => decide (kv.1 = k)) = true :=
      List.any_eq_true.mpr ⟨kv, hmem, hkv⟩
    rw [this] at h; exact Bool.false_ne_true h.symm
  simp [dGet?, List.find?_eq_none.mpr hall]

theorem dContains_dInsert_self {α : Type} {m : Dict α} {k : Chars} {v : α} :
    dContains (dInsert m k v) k = true := by
  unfold dInsert
  by_cases hc : dContains m k = true
  · simp only [hc, if_true]
    rw [dContains_iff] at hc ⊢
    obtain ⟨v0, hmem⟩ := hc
    refine ⟨v, ?_⟩
    rw [List.mem_map]
    exact ⟨(k, v0), hmem, by simp⟩
  · simp only [Bool.not_eq_true] at hc
    simp only [hc, Bool.false_eq_true, if_false]
    rw [dContains_iff]
    exact ⟨v, List.mem_append_right _ (by simp)⟩

theorem dContains_dInsert_mono {α : Type} {m : Dict α} {k k' : Chars} {v : α}
    (h : dContains m k' = true) : dContains (dInsert m k v) k' = true := by
  unfold dInsert
  by_cases hc : dContains m k = true
  · simp only [hc, if_true]
    rw [dContains_iff] at h ⊢
    obtain ⟨v0, hmem⟩ := h
    by_cases hk : k' = k
    · subst hk; exact ⟨v, List.mem_map.mpr ⟨(k', v0), hmem, by simp⟩⟩
    · exact ⟨v0, List.mem_map.mpr ⟨(k', v0), hmem, by simp [hk]⟩⟩
  · simp only [Bool.not_eq_true] at hc
    simp only [hc, Bool.false_eq_true, if_false]
    rw [dContains_iff] at h ⊢
    obtain ⟨v0, hmem⟩ := h
    exact ⟨v0, List.mem_append_left _ hmem⟩

theorem find?_map_key_ne {α : Type} {m : Dict α} {k k' : Chars} {v : α}
    (hne : k' ≠ k) :
    (m.map (fun kv => if kv.1 = k then (k, v) else kv)).find?
        (fun kv => decide (kv.1 = k')) =
      (m.find? (fun kv => decide (kv.1 = k'))).map
        (fun kv => if kv.1 = k then (k, v) else kv) := by
  induction m with
  | nil => simp
  | cons a t ih =>
    rw [List.map_cons]
    by_cases ha : a.1 = k
    · have h1 : ((if a.1 = k then (k, v) else a) : Chars × α) = (k, v) := if_pos ha
      have h2 : ¬ (a.1 = k') := fun hh => hne ((hh ▸ ha : k' = k))
      rw [h1]
      rw [List.find?_cons_of_neg _ (by simpa using fun hh : k = k' => hne hh.symm)]
      rw [List.find?_cons_of_neg _ (by simpa using h2)]
      exact ih
    · have h1 : ((if a.1 = k then (k, v) else a) : Chars × α) = a := if_neg ha
      rw [h1]
      by_cases hk' : a.1 = k'
      · rw [List.find?_cons_of_pos _ (by simpa using hk')]
        rw [List.find?_cons_of_pos _ (by simpa using hk')]
        simp [Option.map_some, h1]
      · rw [List.find?_cons_of_neg _ (by simpa using hk')]
        rw [List.find?_cons_of_neg _ (by simpa using hk')]
        exact ih

theorem dGet?_dInsert_ne {α : Type} {m : Dict α} {k k' : Chars} {v : α}
    (hne : k' ≠ k) : dGet? (dInsert m k v) k' = dGet? m k' := by
  unfold dInsert
  by_cases hc : dContains m k = true
  · simp only [hc, if_true]
    unfold dGet?
    rw [find?_map_key_ne hne]
    cases hf : m.find? (fun kv => decide (kv.1 = k')) with
    | none => simp
    | some kv =>
      have hp := List.find?_some hf
      cases kv with
      | mk k1 v1 =>
        simp at hp; subst hp
        simp [if_neg hne]
  · simp only [Bool.not_eq_true] at hc
    simp only [hc, Bool.false_eq_true, if_false]
    unfold dGet?
    rw [List.find?_append]
    cases hf : m.find? (fun kv => decide (kv.1 = k')) with
    | none =>
      simp [List.find?, Ne.symm hne]
    | some kv => simp

theorem dGet?_dInsert_self {α : Type} {m : Dict α} {k : Chars} {v : α} :
    dGet? (dInsert m k v) k = some v := by
  unfold dInsert
  by_cases hc : dContains m k = true
  · simp only [hc, if_true]
    rw [dContains_iff] at hc
    obtain ⟨v0, hmem⟩ := hc
    unfold dGet?
    induction m with
    | nil => simp at hmem
    | cons a t ih =>
      rw [List.map_cons]
      by_cases ha : a.1 = k
      · have h1 : ((if a.1 = k then (k, v) else a) : Chars × α) = (k, v) := if_pos ha
        rw [h1, List.find?_cons_of_pos _ (by simp)]
        simp
      · have h1 : ((if a.1 = k then (k, v) else a) : Chars × α) = a := if_neg ha
        rw [h1, List.find?_cons_of_neg _ (by simpa using ha)]
        have hmem' : (k, v0) ∈ t := by
          rcases List.mem_cons.mp hmem with h | h
          · exact absurd (congrArg Prod.fst h).symm ha
          · exact h
        exact ih hmem'
  · simp only [Bool.not_eq_true] at hc
    simp only [hc, Bool.false_eq_true, if_false]
    unfold dGet?
    rw [List.find?_append]
    rw [List.find?_eq_none.mpr ?_]
    · simp [List.find?]
    · intro kv hmem hkv
      simp at hkv
      have h2 : ((k, kv.2) : Chars × α) = kv := by rw [← hkv]
      have : dContains m k = true := dContains_iff.mpr ⟨kv.2, h2 ▸ hmem⟩
      rw [this] at hc; simp at hc

theorem mem_dInsert {α : Type} {m : Dict α} {k k' : Chars} {v v' : α}
    (h : (k', v') ∈ dInsert m k v) : (k', v') ∈ m ∨ (k' = k ∧ v' = v) := by
  unfold dInsert at h
  by_cases hc : dContains m k = true
  · rw [if_pos hc] at h
    rw [List.mem_map] at h
    obtain ⟨kv, hmem, heq⟩ := h
    by_cases ha : kv.1 = k
    · rw [if_pos ha] at heq
      right
      exact ⟨(congrArg Prod.fst heq).symm, (congrArg Prod.snd heq).symm⟩
    · rw [if_neg ha] at heq
      left; exact heq ▸ hmem
  · simp only [Bool.not_eq_true] at hc
    rw [hc] at h
    simp only [Bool.false_eq_true, if_false] at h
    rcases List.mem_append.mp h with h | h
    · left; exact h
    · right; simpa using h

theorem dKeys_dInsert {α : Type} {m : Dict α} {k : Chars} {v : α} :
    dKeys (dInsert m k v) = if dContains m k then dKeys m else dKeys m ++ [k] := by
  unfold dInsert
  by_cases hc : dContains m k = true
  · simp only [hc, if_true]
    unfold dKeys
    rw [List.map_map]
    congr 1
    funext kv
    by_cases ha : kv.1 = k
    · simp [Function.comp, ha]
    · simp [Function.comp, ha]
  · simp only [Bool.not_eq_true] at hc
    simp [hc, dKeys]

theorem dKeys_dInsert_nodup {α : Type} {m : Dict α} {k : Chars} {v : α}
    (h : (dKeys m).Nodup) : (dKeys (dInsert m k v)).Nodup := by
  rw [dKeys_dInsert]
  by_cases hc : dContains m k = true
  · simpa [hc]
  · simp only [Bool.not_eq_true] at hc
    simp only [hc, Bool.false_eq_true, if_false]
    rw [List.nodup_append]
    refine ⟨h, List.nodup_singleton k, ?_⟩
    intro a ha hb
    simp at hb
    subst hb
    have : dContains m a = true := dContains_iff_keys.mpr ha
    rw [this] at hc; simp at hc

/-! ### Copy-loop lemmas -/

theorem foldl_dInsert_append {α : Type} (m : Dict α) :
    ∀ acc : Dict α, (dKeys (acc ++ m)).Nodup →
      m.foldl (fun a kv => dInsert a kv.1 kv.2) acc = acc ++ m := by
  induction m with
  | nil => intro acc _; simp
  | cons a t ih =>
    intro acc h
    rw [List.foldl_cons]
    have hd : (dKeys acc ++ a.1 :: dKeys t).Nodup := by
      simpa [dKeys, List.map_append] using h
    have hknotin : a.1 ∉ dKeys acc := by
      rcases List.nodup_cons.mp (List.nodup_middle.mp hd) with ⟨hnotin, _⟩
      exact fun hmem => hnotin (List.mem_append_left _ hmem)
    have hcf : dContains acc a.1 = false := by
      rw [Bool.eq_false_iff]
      intro hc
      exact hknotin (dContains_iff_keys.mp hc)
    have hins : dInsert acc a.1 a.2 = acc ++ [a] := by
      unfold dInsert
      simp [hcf]
    rw [hins, ih (acc ++ [a]) (by simpa [List.append_assoc] using h)]
    simp

theorem foldl_dInsert_nodup {α : Type} (m : Dict α) :
    ∀ acc : Dict α, (dKeys acc).Nodup →
      (dKeys (m.foldl (fun a kv => dInsert a kv.1 kv.2) acc)).Nodup := by
  induction m with
  | nil => intro acc h; simpa using h
  | cons a t ih =>
    intro acc h
    rw [List.foldl_cons]
    exact ih _ (dKeys_dInsert_nodup h)

theorem mem_foldl_dInsert {α : Type} (m : Dict α) :
    ∀ (acc : Dict α) (k : Chars) (v : α),
      (k, v) ∈ m.foldl (fun a kv => dInsert a kv.1 kv.2) acc →
      (k, v) ∈ acc ∨ (k, v) ∈ m := by
  induction m with
  | nil => intro acc k v h; exact Or.inl (by simpa using h)
  | cons a t ih =>
    intro acc k v h
    rw [List.foldl_cons] at h
    rcases ih _ k v h with h1 | h1
    · rcases mem_dInsert h1 with h2 | ⟨h2, h3⟩
      · exact Or.inl h2
      · right
        rw [h2, h3, Prod.mk.eta]
        exact List.mem_cons_self _ _
    · right; exact List.mem_cons_of_mem _ h1

theorem pyCopy_eq_self {m : JDict} (h : (dKeys m).Nodup) : pyCopy m = m := by
  unfold pyCopy
  simpa using foldl_dInsert_append m [] (by simpa using h)

theorem pyCopy_nodup (m : JDict) : (dKeys (pyCopy m)).Nodup :=
  foldl_dInsert_nodup m [] (by simp [dKeys])

theorem mem_pyCopy {m : JDict} {k : Chars} {v : Json}
    (h : (k, v) ∈ pyCopy m) : (k, v) ∈ m := by
  unfold pyCopy at h
  rcases mem_foldl_dInsert m [] k v h with h1 | h1
  · simp at h1
  · exact h1

/-! ### Entry-point reconciliation lemmas -/

theorem findReactKey_mem_variants {m : JDict} {k : Chars}
    (h : findReactKey m = some k) : k ∈ reactVariants := by
  unfold findReactKey at h
  cases hf : m.find? (fun kv => decide (kv.1 ∈ reactVariants)) with
  | none => rw [hf] at h; simp at h
  | some kv =>
    rw [hf] at h
    simp at h
    have hp := List.find?_some hf
    simp at hp
    exact h ▸ hp

theorem findReactKey_contains {m : JDict} {k : Chars}
    (h : findReactKey m = some k) : dContains m k = true := by
  unfold findReactKey at h
  cases hf : m.find? (fun kv => decide (kv.1 ∈ reactVariants)) with
  | none => rw [hf] at h; simp at h
  | some kv =>
    rw [hf] at h
    simp at h
    have hm := List.mem_of_find?_eq_some hf
    exact dContains_iff.mpr ⟨kv.2, by rw [← h]; exact (Prod.mk.eta) ▸ hm⟩

theorem findReactKey_eq_none {m : JDict}
    (h : ∀ kv ∈ reactVariants, dContains m kv = false) : findReactKey m = none := by
  unfold findReactKey
  rw [List.find?_eq_none.mpr ?_]
  · rfl
  · intro kv hmem hp
    simp at hp
    have : dContains m kv.1 = true := dContains_iff.mpr ⟨kv.2, Prod.mk.eta ▸ hmem⟩
    rw [h kv.1 hp] at this
    simp at this

theorem findReactKey_isSome {m : JDict} {kv : Chars}
    (hv : kv ∈ reactVariants) (hc : dContains m kv = true) :
    ∃ k, findReactKey m = some k := by
  unfold findReactKey
  obtain ⟨v, hmem⟩ := dContains_iff.mp hc
  have : (m.find? (fun kv => decide (kv.1 ∈ reactVariants))).isSome := by
    rw [List.find?_isSome]
    exact ⟨(kv, v), hmem, by simpa using hv⟩
  cases hf : m.find? (fun kv => decide (kv.1 ∈ reactVariants)) with
  | none => rw [hf] at this; simp at this
  | some kv' => exact ⟨kv'.1, rfl⟩

theorem reconcile_eq_self_of_contains_app {m : JDict}
    (h : dContains m keyApp = true) : reconcileReact m = m := by
  unfold reconcileReact
  cases hf : findReactKey m with
  | none => rfl
  | some k =>
    by_cases hk : k = keyApp
    · simp [hk]
    · simp [hk, h]

theorem reconcile_get_present {m : JDict} {k : Chars}
    (h : dContains m k = true) : dGet? (reconcileReact m) k = dGet? m k := by
  unfold reconcileReact
  cases hf : findReactKey m with
  | none => rfl
  | some k0 =>
    by_cases hk0 : k0 = keyApp
    · simp [hk0]
    · by_cases happ : dContains m keyApp = true
      · simp [hk0, happ]
      · have hka : k ≠ keyApp := by
          intro he
          rw [he] at h
          exact happ h
        simp only [Bool.not_eq_true] at happ
        simp [hk0, happ, dGet?_dInsert_ne hka]

theorem reconcile_contains_mono {m : JDict} {k : Chars}
    (h : dContains m k = true) : dContains (reconcileReact m) k = true := by
  unfold reconcileReact
  cases hf : findReactKey m with
  | none => exact h
  | some k0 =>
    by_cases hk0 : k0 = keyApp
    · simpa [hk0]
    · by_cases happ : dContains m keyApp = true
      · simpa [hk0, happ]
      · simp only [Bool.not_eq_true] at happ
        simpa [hk0, happ] using dContains_dInsert_mono h

theorem reconcile_nodup {m : JDict} (h : (dKeys m).Nodup) :
    (dKeys (reconcileReact m)).Nodup := by
  unfold reconcileReact
  cases hf : findReactKey m with
  | none => exact h
  | some k0 =>
    by_cases hk0 : k0 = keyApp
    · simpa [hk0]
    · by_cases happ : dContains m keyApp = true
      · simpa [hk0, happ]
      · simp only [Bool.not_eq_true] at happ
        simpa [hk0, happ] using dKeys_dInsert_nodup h

theorem mem_reconcile {m : JDict} {k : Chars} {v : Json}
    (h : (k, v) ∈ reconcileReact m) :
    (k, v) ∈ m ∨ (k = keyApp ∧ ∃ kr, (kr, v) ∈ m) := by
  unfold reconcileReact at h
  revert h
  cases hf : findReactKey m with
  | none => intro h; exact Or.inl h
  | some k0 =>
    intro h
    dsimp only [] at h
    by_cases hk0 : k0 = keyApp
    · rw [if_neg (by simpa using hk0)] at h
      exact Or.inl h
    · rw [if_pos hk0] at h
      by_cases happ : dContains m keyApp = true
      · rw [if_neg (by simpa using happ)] at h
        exact Or.inl h
      · rw [if_pos (by simpa using happ)] at h
        rcases mem_dInsert h with h1 | ⟨h1, h2⟩
        · exact Or.inl h1
        · right
          refine ⟨h1, k0, ?_⟩
          obtain ⟨v0, hget⟩ :=
            dGet?_isSome_of_dContains (findReactKey_contains hf)
          rw [h2, hget]
          simpa using dGet?_mem hget

theorem reconcile_app_of_absent {m : JDict} {k0 : Chars}
    (hf : findReactKey m = some k0) (happ : dContains m keyApp = false) :
    dGet? (reconcileReact m) keyApp = dGet? m k0 := by
  unfold reconcileReact
  rw [hf]
  dsimp only []
  have hk0 : k0 ≠ keyApp := by
    intro he
    rw [he] at hf
    rw [findReactKey_contains hf] at happ
    simp at happ
  rw [if_pos hk0, if_pos (by simp [happ])]
  obtain ⟨v0, hget⟩ := dGet?_isSome_of_dContains (findReactKey_contains hf)
  rw [dGet?_dInsert_self, hget]
  simp [hget]

/-! ### Backfill lemmas -/

theorem backStep_contains_self {m : JDict} {k : Chars} {ph : Json} :
    dContains (backStep m k ph) k = true := by
  unfold backStep
  by_cases hc : dContains m k = true
  · simp [hc]
  · simp only [Bool.not_eq_true] at hc
    simpa [hc] using dContains_dInsert_self

theorem backStep_contains_mono {m : JDict} {k k' : Chars} {ph : Json}
    (h : dContains m k' = true) : dContains (backStep m k ph) k' = true := by
  unfold backStep
  by_cases hc : dContains m k = true
  · simpa [hc]
  · simp only [Bool.not_eq_true] at hc
    simpa [hc] using dContains_dInsert_mono h

theorem backStep_get_present {m : JDict} {k k' : Chars} {ph : Json}
    (h : dContains m k' = true) : dGet? (backStep m k ph) k' = dGet? m k' := by
  unfold backStep
  by_cases hc : dContains m k = true
  · simp [hc]
  · by_cases hk : k' = k
    · rw [hk] at h
      rw [h] at hc
      simp at hc
    · simp only [Bool.not_eq_true] at hc
      simp [hc, dGet?_dInsert_ne hk]

theorem backStep_get_ne {m : JDict} {k k' : Chars} {ph : Json}
    (hk : k' ≠ k) : dGet? (backStep m k ph) k' = dGet? m k' := by
  unfold backStep
  by_cases hc : dContains m k = true
  · simp [hc]
  · simp only [Bool.not_eq_true] at hc
    simp [hc, dGet?_dInsert_ne hk]

theorem backStep_get_absent {m : JDict} {k : Chars} {ph : Json}
    (h : dContains m k = false) : dGet? (backStep m k ph) k = some ph := by
  unfold backStep
  simp [h, dGet?_dInsert_self]

theorem backStep_eq_self {m : JDict} {k : Chars} {ph : Json}
    (h : dContains m k = true) : backStep m k ph = m := by
  unfold backStep
  simp [h]

theorem mem_backStep {m : JDict} {k k' : Chars} {v ph : Json}
    (h : (k', v) ∈ backStep m k ph) : (k', v) ∈ m ∨ (k' = k ∧ v = ph) := by
  unfold backStep at h
  by_cases hc : dContains m k = true
  · rw [if_neg (by simpa using hc)] at h
    exact Or.inl h
  · rw [if_pos (by simpa using hc)] at h
    exact mem_dInsert h

theorem backStep_nodup {m : JDict} {k : Chars} {ph : Json}
    (h : (dKeys m).Nodup) : (dKeys (backStep m k ph)).Nodup := by
  unfold backStep
  by_cases hc : dContains m k = true
  · simpa [hc]
  · simp only [Bool.not_eq_true] at hc
    simpa [hc] using dKeys_dInsert_nodup h

theorem keyApp_ne_keyModels : keyApp ≠ keyModels := by decide
theorem keyApp_ne_keyMain : keyApp ≠ keyMain := by decide
theorem keyApp_ne_keyReadme : keyApp ≠ keyReadme := by decide
theorem keyModels_ne_keyMain : keyModels ≠ keyMain := by decide
theorem keyModels_ne_keyReadme : keyModels ≠ keyReadme := by decide
theorem keyMain_ne_keyReadme : keyMain ≠ keyReadme := by decide

theorem backfill_contains_app (m : JDict) :
    dContains (backfill m) keyApp = true := by
  unfold backfill
  exact backStep_contains_mono (backStep_contains_mono
    (backStep_contains_mono backStep_contains_self))

theorem backfill_contains_models (m : JDict) :
    dContains (backfill m) keyModels = true := by
  unfold backfill
  exact backStep_contains_mono (backStep_contains_mono backStep_contains_self)

theorem backfill_contains_main (m : JDict) :
    dContains (backfill m) keyMain = true := by
  unfold backfill
  exact backStep_contains_mono backStep_contains_self

theorem backfill_contains_readme (m : JDict) :
    dContains (backfill m) keyReadme = true := by
  unfold backfill
  exact backStep_contains_self

theorem backfill_get_present {m : JDict} {k : Chars}
    (h : dContains m k = true) : dGet? (backfill m) k = dGet? m k := by
  unfold backfill
  rw [backStep_get_present (backStep_contains_mono (backStep_contains_mono
        (backStep_contains_mono h))),
      backStep_get_present (backStep_contains_mono (backStep_contains_mono h)),
      backStep_get_present (backStep_contains_mono h),
      backStep_get_present h]

theorem backfill_get_app_absent {m : JDict}
    (h : dContains m keyApp = false) :
    dGet? (backfill m) keyApp = some (.str placeholderApp) := by
  unfold backfill
  rw [backStep_get_ne keyApp_ne_keyReadme, backStep_get_ne keyApp_ne_keyMain,
      backStep_get_ne keyApp_ne_keyModels]
  exact backStep_get_absent h

theorem mem_backfill {m : JDict} {k : Chars} {v : Json}
    (h : (k, v) ∈ backfill m) :
    (k, v) ∈ m ∨ (k = keyApp ∧ v = .str placeholderApp) ∨
      (k = keyModels ∧ v = .str placeholderModels) ∨
      (k = keyMain ∧ v = .str placeholderMain) ∨
      (k = keyReadme ∧ v = .str placeholderReadme) := by
  unfold backfill at h
  rcases mem_backStep h with h1 | h1
  · rcases mem_backStep h1 with h2 | h2
    · rcases mem_backStep h2 with h3 | h3
      · rcases mem_backStep h3 with h4 | h4
        · exact Or.inl h4
        · exact Or.inr (Or.inl h4)
      · exact Or.inr (Or.inr (Or.inl h3))
    · exact Or.inr (Or.inr (Or.inr (Or.inl h2)))
  · exact Or.inr (Or.inr (Or.inr (Or.inr h1)))

theorem backfill_nodup {m : JDict} (h : (dKeys m).Nodup) :
    (dKeys (backfill m)).Nodup :=
  backStep_nodup (backStep_nodup (backStep_nodup (backStep_nodup h)))

theorem backfill_eq_self {m : JDict}
    (hApp : dContains m keyApp = true) (hModels : dContains m keyModels = true)
    (hMain : dContains m keyMain = true) (hReadme : dContains m keyReadme = true) :
    backfill m = m := by
  unfold backfill
  rw [backStep_eq_self hApp, backStep_eq_self hModels, backStep_eq_self hMain,
      backStep_eq_self hReadme]

/-! ### Normalizer pipeline lemmas -/

theorem normalizeFiles_nodup (m : JDict) : (dKeys (normalizeFiles m)).Nodup :=
  backfill_nodup (reconcile_nodup (pyCopy_nodup m))

theorem normalizeFiles_contains_app (m : JDict) :
    dContains (normalizeFiles m) keyApp = true := backfill_contains_app _

theorem normalizeFiles_contains_models (m : JDict) :
    dContains (normalizeFiles m) keyModels = true := backfill_contains_models _

theorem normalizeFiles_contains_main (m : JDict) :
    dContains (normalizeFiles m) keyMain = true := backfill_contains_main _

theorem normalizeFiles_contains_readme (m : JDict) :
    dContains (normalizeFiles m) keyReadme = true := backfill_contains_readme _

theorem normalizeFiles_get_present {m : JDict} {k : Chars}
    (hnd : (dKeys m).Nodup) (h : dContains m k = true) :
    dGet? (normalizeFiles m) k = dGet? m k := by
  unfold normalizeFiles
  rw [pyCopy_eq_self hnd, backfill_get_present (reconcile_contains_mono h),
      reconcile_get_present h]

theorem mem_normalizeFiles {m : JDict} {k : Chars} {v : Json}
    (h : (k, v) ∈ normalizeFiles m) :
    (∃ kr, (kr, v) ∈ m) ∨ (k = keyApp ∧ v = .str placeholderApp) ∨
      (k = keyModels ∧ v = .str placeholderModels) ∨
      (k = keyMain ∧ v = .str placeholderMain) ∨
      (k = keyReadme ∧ v = .str placeholderReadme) := by
  unfold normalizeFiles at h
  rcases mem_backfill h with h1 | h1 | h1 | h1 | h1
  · rcases mem_reconcile h1 with h2 | ⟨_, kr, h2⟩
    · exact Or.inl ⟨k, mem_pyCopy h2⟩
    · exact Or.inl ⟨kr, mem_pyCopy h2⟩
  · exact Or.inr (Or.inl h1)
  · exact Or.inr (Or.inr (Or.inl h1))
  · exact Or.inr (Or.inr (Or.inr (Or.inl h1)))
  · exact Or.inr (Or.inr (Or.inr (Or.inr h1)))

theorem normalizeFiles_eq_self {m : JDict} (hnd : (dKeys m).Nodup)
    (hApp : dContains m keyApp = true) (hModels : dContains m keyModels = true)
    (hMain : dContains m keyMain = true) (hReadme : dContains m keyReadme = true) :
    normalizeFiles m = m := by
  unfold normalizeFiles
  rw [pyCopy_eq_self hnd, reconcile_eq_self_of_contains_app hApp,
      backfill_eq_self hApp hModels hMain hReadme]

theorem normalizeFiles_idem (m : JDict) :
    normalizeFiles (normalizeFiles m) = normalizeFiles m :=
  normalizeFiles_eq_self (normalizeFiles_nodup m) (normalizeFiles_contains_app m)
    (normalizeFiles_contains_models m) (normalizeFiles_contains_main m)
    (normalizeFiles_contains_readme m)

/-! ### `_parse_response` shape lemmas -/

theorem extractResult_ok {data : Json} {d : Chars} {r : AnalysisResult}
    (h : extractResult data d = .ok r) :
    ∃ members filesDict, data = .obj members ∧
      (dGet? members keyFiles).getD (.obj []) = .obj filesDict ∧
      r = ⟨(dGet? members keySummary).getD (.str (fallbackSummary d)),
           normalizeFiles filesDict⟩ := by
  cases data with
  | obj members =>
    unfold extractResult at h
    dsimp only [] at h
    revert h
    cases hgf : (dGet? members keyFiles).getD (.obj []) <;> intro h <;>
        dsimp only [] at h <;>
      first
        | exact Except.noConfusion h
        | (injection h with h
           exact ⟨members, _, rfl, hgf, h.symm⟩)
  | null => exact Except.noConfusion h
  | bool b => exact Except.noConfusion h
  | num n => exact Except.noConfusion h
  | str s => exact Except.noConfusion h
  | arr a => exact Except.noConfusion h

theorem parseResponse_ok_inner {s d : Chars} {r : AnalysisResult}
    (h : parseResponse s d = .ok r) : parseResponseInner s d = .ok r := by
  unfold parseResponse at h
  revert h
  cases hi : parseResponseInner s d with
  | ok r' =>
    intro h
    injection h with h
    rw [h]
  | error e =>
    cases e <;> (intro h; exact Except.noConfusion h)

theorem parseResponseInner_ok {s d : Chars} {r : AnalysisResult}
    (h : parseResponseInner s d = .ok r) :
    ∃ data, jsonParse (stripFences s) = some data ∧ extractResult data d = .ok r := by
  unfold parseResponseInner at h
  revert h
  cases hj : jsonParse (stripFences s) with
  | none => intro h; exact Except.noConfusion h
  | some data => intro h; exact ⟨data, rfl, h⟩

theorem parseResponse_ok_of {s d : Chars} {members filesDict : JDict}
    (hj : jsonParse (stripFences s) = some (.obj members))
    (hgf : (dGet? members keyFiles).getD (.obj []) = .obj filesDict) :
    parseResponse s d =
      .ok ⟨(dGet? members keySummary).getD (.str (fallbackSummary d)),
           normalizeFiles filesDict⟩ := by
  unfold parseResponse parseResponseInner extractResult
  rw [hj]
  dsimp only []
  rw [hgf]

theorem parseResponse_error_of_parse_fail {s d : Chars}
    (hj : jsonParse (stripFences s) = none) :
    parseResponse s d =
      .error (.valueError (chars "Invalid JSON response from AI: " ++
        chars "Expecting value")) := by
  unfold parseResponse parseResponseInner
  rw [hj]

theorem parseResponse_error_of_nonobj {s d : Chars} {j : Json}
    (hj : jsonParse (stripFences s) = some j) (hno : isObjJ j = false) :
    parseResponse s d =
      .error (.valueError (chars "Failed to parse AI response: " ++
        chars "object has no attribute get")) := by
  unfold parseResponse parseResponseInner
  rw [hj]
  dsimp only []
  cases j with
  | obj members => simp [isObjJ] at hno
  | null => rfl
  | bool b => rfl
  | num n => rfl
  | str sx => rfl
  | arr a => rfl

/-! ### Whitespace, strip and fence-marker lemmas -/

theorem jsonWs_pySpace {c : Char} (h : isJsonWs c = true) : isPySpace c = true := by
  have h' : c = ' ' ∨ c = '\t' ∨ c = '\n' ∨ c = '\r' := by simpa [isJsonWs] using h
  rcases h' with h' | h' | h' | h' <;> simp [isPySpace, h']

theorem dropWhile_eq_self_of_head {p : Char → Bool} {l : Chars}
    (h : ∀ c, l.head? = some c → p c = false) : l.dropWhile p = l := by
  cases l with
  | nil => rfl
  | cons c tl => rw [List.dropWhile_cons, h c rfl]; simp

theorem head?_dropWhile_false {p : Char → Bool} (l : Chars) :
    ∀ c, (l.dropWhile p).head? = some c → p c = false := by
  induction l with
  | nil => intro c h; simp at h
  | cons a tl ih =>
    intro c h
    rw [List.dropWhile_cons] at h
    by_cases hp : p a = true
    · rw [if_pos hp] at h; exact ih c h
    · rw [if_neg hp] at h
      obtain rfl : a = c := by simpa using h
      simpa using hp

theorem pyStrip_prefix (l : Chars) : pyStrip l <+: l.dropWhile isPySpace := by
  unfold pyStrip
  have hsuf : ((l.dropWhile isPySpace).reverse.dropWhile isPySpace) <:+
      (l.dropWhile isPySpace).reverse := List.dropWhile_suffix _
  have h2 : ((l.dropWhile isPySpace).reverse.dropWhile isPySpace).reverse <+:
      (l.dropWhile isPySpace).reverse.reverse := List.reverse_prefix.mpr hsuf
  rwa [List.reverse_reverse] at h2

theorem pyStrip_head_not_space {l : Chars} {c : Char}
    (h : (pyStrip l).head? = some c) : isPySpace c = false := by
  obtain ⟨tail2, heq⟩ := pyStrip_prefix l
  have hh : (l.dropWhile isPySpace).head? = some c := by
    rw [← heq, List.head?_append, h]; rfl
  exact head?_dropWhile_false l c hh

theorem pyStrip_last_not_space {l : Chars} {c : Char}
    (h : (pyStrip l).getLast? = some c) : isPySpace c = false := by
  have hrev : (pyStrip l).reverse =
      (l.dropWhile isPySpace).reverse.dropWhile isPySpace := by
    unfold pyStrip; rw [List.reverse_reverse]
  have hh : ((l.dropWhile isPySpace).reverse.dropWhile isPySpace).head? = some c := by
    rw [← hrev, List.head?_reverse]; exact h
  exact head?_dropWhile_false _ c hh

theorem pyStrip_eq_self {l : Chars}
    (h1 : ∀ c, l.head? = some c → isPySpace c = false)
    (h2 : ∀ c, l.getLast? = some c → isPySpace c = false) : pyStrip l = l := by
  unfold pyStrip
  rw [dropWhile_eq_self_of_head h1]
  rw [dropWhile_eq_self_of_head (fun c hc => h2 c (by rwa [List.head?_reverse] at hc))]
  exact List.reverse_reverse l

theorem pyStrip_idem (l : Chars) : pyStrip (pyStrip l) = pyStrip l :=
  pyStrip_eq_self (fun _ h => pyStrip_head_not_space h)
    (fun _ h => pyStrip_last_not_space h)

theorem pyStrip_cons_head {l tl : Chars} {c0 : Char} (hl : l = c0 :: tl)
    (hc0 : isPySpace c0 = false) (hne : pyStrip l ≠ []) :
    (pyStrip l).head? = some c0 := by
  obtain ⟨tail2, heq⟩ := pyStrip_prefix l
  have hd : l.dropWhile isPySpace = l := by
    apply dropWhile_eq_self_of_head
    intro c h
    rw [hl] at h
    simp at h
    rwa [← h]
  rw [hd] at heq
  cases hps : pyStrip l with
  | nil => exact absurd hps hne
  | cons a tla =>
    rw [hps] at heq
    rw [hl] at heq
    have := congrArg List.head? heq
    simpa using this

theorem skipWs_eq_self_of_strip (l : Chars) : skipWs (pyStrip l) = pyStrip l := by
  apply dropWhile_eq_self_of_head
  intro c h
  have := pyStrip_head_not_space h
  rw [Bool.eq_false_iff]
  intro hj
  rw [jsonWs_pySpace hj] at this
  simp at this

theorem pyStartsWith_head {c d : Char} {tl p : Chars}
    (h : pyStartsWith (c :: tl) (d :: p) = true) : c = d := by
  unfold pyStartsWith at h
  rw [decide_eq_true_eq] at h
  simpa [List.length_cons, List.take_succ_cons] using congrArg List.head? h

theorem pyStartsWith_append_self {p x : Chars} : pyStartsWith (p ++ x) p = true := by
  unfold pyStartsWith
  rw [decide_eq_true_eq]
  exact List.take_left p x

theorem pyStartsWith_decomp {l p : Chars} (h : pyStartsWith l p = true) :
    l = p ++ l.drop p.length := by
  unfold pyStartsWith at h
  rw [decide_eq_true_eq] at h
  conv_lhs => rw [← List.take_append_drop p.length l]
  rw [h]

theorem pyEndsWith_append_self {x s : Chars} : pyEndsWith (x ++ s) s = true := by
  unfold pyEndsWith
  rw [List.reverse_append]
  exact pyStartsWith_append_self

theorem not_pyStartsWith_of_head {l tl p ptl : Chars} {c d : Char}
    (hl : l = c :: tl) (hp : p = d :: ptl) (hne : c ≠ d) :
    pyStartsWith l p = false := by
  rw [Bool.eq_false_iff]
  intro hsw
  rw [hl, hp] at hsw
  exact hne (pyStartsWith_head hsw)

theorem not_pyEndsWith_fence {l : Chars} {c : Char}
    (h : l.getLast? = some c) (hc : c ≠ backtick) : pyEndsWith l fence = false := by
  rw [Bool.eq_false_iff]
  intro he
  unfold pyEndsWith at he
  have hrev : l.reverse.head? = some c := by rw [List.head?_reverse]; exact h
  cases hr : l.reverse with
  | nil => rw [hr] at hrev; simp at hrev
  | cons c0 tla =>
    rw [hr] at hrev he
    have hc0 : c0 = c := by simpa using hrev
    have hfr : fence.reverse = backtick :: [backtick, backtick] := by decide
    rw [hfr] at he
    exact hc (hc0 ▸ pyStartsWith_head he)

/-! ### Parser consumption lemmas

A successful parse of a JSON value consumes a non-empty prefix whose last
character is never a backtick; this is what makes fence stripping a no-op on
plain JSON documents. -/

theorem parseStringRest_consumed (fuel : Nat) :
    ∀ l s r : Chars, parseStringRest fuel l = some (s, r) →
      ∃ pre, l = pre ++ '"' :: r := by
  induction fuel with
  | zero => intro l s r h; exact Option.noConfusion h
  | succ fuel ih =>
    intro l s r h
    unfold parseStringRest at h
    revert h
    cases l with
    | nil => intro h; exact Option.noConfusion h
    | cons c rest =>
      intro h
      dsimp only [] at h
      by_cases h1 : c = '"'
      · rw [if_pos h1] at h
        simp only [Option.some.injEq, Prod.mk.injEq] at h
        obtain ⟨_, hr⟩ := h
        exact ⟨[], by rw [h1, hr]; simp⟩
      · rw [if_neg h1] at h
        by_cases h2 : c = '\\'
        · rw [if_pos h2] at h
          revert h
          cases rest with
          | nil => intro h; exact Option.noConfusion h
          | cons e rest2 =>
            intro h
            dsimp only [] at h
            by_cases h3 : e = 'u'
            · rw [if_pos h3] at h
              revert h
              match rest2 with
              | [] => intro h; exact Option.noConfusion h
              | [a1] => intro h; exact Option.noConfusion h
              | [a1, a2] => intro h; exact Option.noConfusion h
              | [a1, a2, a3] => intro h; exact Option.noConfusion h
              | a1 :: a2 :: a3 :: a4 :: rest3 =>
                intro h
                dsimp only [] at h
                by_cases h4 : isHexDigit a1 = true ∧ isHexDigit a2 = true ∧
                    isHexDigit a3 = true ∧ isHexDigit a4 = true
                · rw [if_pos h4] at h
                  revert h
                  cases hrec : parseStringRest fuel rest3 with
                  | none => intro h; exact Option.noConfusion h
                  | some sr =>
                    obtain ⟨s1, r1⟩ := sr
                    intro h
                    dsimp only [] at h
                    simp only [Option.some.injEq, Prod.mk.injEq] at h
                    obtain ⟨_, hr⟩ := h
                    obtain ⟨p3, hp3⟩ := ih rest3 s1 r1 hrec
                    refine ⟨c :: e :: a1 :: a2 :: a3 :: a4 :: p3, ?_⟩
                    rw [hp3, hr]
                    simp
                · rw [if_neg h4] at h; exact Option.noConfusion h
            · rw [if_neg h3] at h
              revert h
              cases hesc : escChar e with
              | none => intro h; exact Option.noConfusion h
              | some ec =>
                intro h
                dsimp only [] at h
                revert h
                cases hrec : parseStringRest fuel rest2 with
                | none => intro h; exact Option.noConfusion h
                | some sr =>
                  obtain ⟨s1, r1⟩ := sr
                  intro h
                  dsimp only [] at h
                  simp only [Option.some.injEq, Prod.mk.injEq] at h
                  obtain ⟨_, hr⟩ := h
                  obtain ⟨p3, hp3⟩ := ih rest2 s1 r1 hrec
                  refine ⟨c :: e :: p3, ?_⟩
                  rw [hp3, hr]
                  simp
        · rw [if_neg h2] at h
          by_cases h3 : c.toNat < 32
          · rw [if_pos h3] at h; exact Option.noConfusion h
          · rw [if_neg h3] at h
            revert h
            cases hrec : parseStringRest fuel rest with
            | none => intro h; exact Option.noConfusion h
            | some sr =>
              obtain ⟨s1, r1⟩ := sr
              intro h
              dsimp only [] at h
              simp only [Option.some.injEq, Prod.mk.injEq] at h
              obtain ⟨_, hr⟩ := h
              obtain ⟨p3, hp3⟩ := ih rest s1 r1 hrec
              refine ⟨c :: p3, ?_⟩
              rw [hp3, hr]
              simp

theorem takeWhile_digits_split {l : Chars}
    (h : (l.takeWhile Char.isDigit).isEmpty = false) :
    ∃ pre d, l.takeWhile Char.isDigit = pre ++ [d] ∧ d.isDigit = true := by
  have hne : l.takeWhile Char.isDigit ≠ [] := by
    intro hnil; rw [hnil] at h; simp at h
  exact ⟨_, _, (List.dropLast_append_getLast hne).symm,
    List.mem_takeWhile_imp (List.getLast_mem hne)⟩

theorem parseFracPart_decomp {r fp r2 : Chars} (h : parseFracPart r = some (fp, r2)) :
    r = fp ++ r2 ∧ (fp = [] ∨ ∃ pre d, fp = pre ++ [d] ∧ d.isDigit = true) := by
  unfold parseFracPart at h
  revert h
  cases r with
  | nil =>
    intro h
    simp only [Option.some.injEq, Prod.mk.injEq] at h
    obtain ⟨h1, h2⟩ := h
    exact ⟨by rw [← h1, ← h2]; rfl, Or.inl h1.symm⟩
  | cons c tl =>
    intro h
    dsimp only [] at h
    by_cases hc : c = '.'
    · rw [if_pos hc] at h
      by_cases he : (tl.takeWhile Char.isDigit).isEmpty = true
      · rw [if_pos he] at h; exact Option.noConfusion h
      · rw [if_neg he] at h
        simp only [Option.some.injEq, Prod.mk.injEq] at h
        obtain ⟨h1, h2⟩ := h
        constructor
        · rw [← h1, ← h2]
          simp [List.takeWhile_append_dropWhile]
        · right
          obtain ⟨pre0, d, hsplit, hd⟩ :=
            takeWhile_digits_split (Bool.eq_false_iff.mpr he)
          refine ⟨c :: pre0, d, ?_, hd⟩
          rw [← h1, hsplit]
          rfl
    · rw [if_neg hc] at h
      simp only [Option.some.injEq, Prod.mk.injEq] at h
      obtain ⟨h1, h2⟩ := h
      exact ⟨by rw [← h1, ← h2]; rfl, Or.inl h1.symm⟩

theorem parseExpPart_decomp {r ep r2 : Chars} (h : parseExpPart r = some (ep, r2)) :
    r = ep ++ r2 ∧ (ep = [] ∨ ∃ pre d, ep = pre ++ [d] ∧ d.isDigit = true) := by
  unfold parseExpPart at h
  revert h
  cases r with
  | nil =>
    intro h
    simp only [Option.some.injEq, Prod.mk.injEq] at h
    obtain ⟨h1, h2⟩ := h
    exact ⟨by rw [← h1, ← h2]; rfl, Or.inl h1.symm⟩
  | cons c tl =>
    intro h
    dsimp only [] at h
    by_cases hc : c = 'e' ∨ c = 'E'
    · rw [if_pos hc] at h
      revert h
      cases tl with
      | nil =>
        intro h
        dsimp only [] at h
        simp at h
      | cons s tl' =>
        intro h
        dsimp only [] at h
        by_cases hs : s = '+' ∨ s = '-'
        · rw [if_pos hs] at h
          dsimp only [] at h
          by_cases he : (tl'.takeWhile Char.isDigit).isEmpty = true
          · rw [if_pos he] at h; exact Option.noConfusion h
          · rw [if_neg he] at h
            simp only [Option.some.injEq, Prod.mk.injEq] at h
            obtain ⟨h1, h2⟩ := h
            constructor
            · rw [← h1, ← h2]
              simp [List.takeWhile_append_dropWhile]
            · right
              obtain ⟨pre0, d, hsplit, hd⟩ :=
                takeWhile_digits_split (Bool.eq_false_iff.mpr he)
              refine ⟨c :: s :: pre0, d, ?_, hd⟩
              rw [← h1, hsplit]
              rfl
        · rw [if_neg hs] at h
          dsimp only [] at h
          by_cases he : ((s :: tl').takeWhile Char.isDigit).isEmpty = true
          · rw [if_pos he] at h; exact Option.noConfusion h
          · rw [if_neg he] at h
            simp only [Option.some.injEq, Prod.mk.injEq] at h
            obtain ⟨h1, h2⟩ := h
            constructor
            · rw [← h1, ← h2]
              simp [List.takeWhile_append_dropWhile]
            · right
              obtain ⟨pre0, d, hsplit, hd⟩ :=
                takeWhile_digits_split (Bool.eq_false_iff.mpr he)
              refine ⟨c :: pre0, d, ?_, hd⟩
              rw [← h1, hsplit]
              rfl
    · rw [if_neg hc] at h
      simp only [Option.some.injEq, Prod.mk.injEq] at h
      obtain ⟨h1, h2⟩ := h
      exact ⟨by rw [← h1, ← h2]; rfl, Or.inl h1.symm⟩

theorem numTail_consumed {l1 fp r2 ep r : Chars}
    (hds : (l1.takeWhile Char.isDigit).isEmpty = false)
    (hfp : parseFracPart (l1.dropWhile Char.isDigit) = some (fp, r2))
    (hep : parseExpPart r2 = some (ep, r)) :
    ∃ pre d, l1 = pre ++ d :: r ∧ d.isDigit = true := by
  obtain ⟨hr1, hfpe⟩ := parseFracPart_decomp hfp
  obtain ⟨hr2, hepe⟩ := parseExpPart_decomp hep
  obtain ⟨ds, hds_eq⟩ : ∃ ds, l1.takeWhile Char.isDigit = ds := ⟨_, rfl⟩
  have hl1 : l1 = ds ++ (fp ++ (ep ++ r)) := by
    conv_lhs => rw [← List.takeWhile_append_dropWhile Char.isDigit l1]
    rw [hr1, hr2, hds_eq]
  rcases hepe with hep0 | ⟨eppre, d, hsplit, hd⟩
  · rcases hfpe with hfp0 | ⟨fppre, d, hsplit, hd⟩
    · obtain ⟨dpre, d, hsplitd, hd⟩ := takeWhile_digits_split hds
      rw [hds_eq] at hsplitd
      refine ⟨dpre, d, ?_, hd⟩
      rw [hl1, hsplitd, hep0, hfp0]
      simp
    · refine ⟨ds ++ fppre, d, ?_, hd⟩
      rw [hl1, hsplit, hep0]
      simp
  · refine ⟨ds ++ fp ++ eppre, d, ?_, hd⟩
    rw [hl1, hsplit]
    simp

theorem digit_ne_backtick {d : Char} (hd : d.isDigit = true) : d ≠ backtick := by
  intro hb
  rw [hb] at hd
  exact absurd hd (by decide)

theorem digit_ne_j {d : Char} (hd : d.isDigit = true) : d ≠ 'j' := by
  intro hb
  rw [hb] at hd
  exact absurd hd (by decide)

theorem parseNumber_consumed {l : Chars} {j : Json} {r : Chars}
    (h : parseNumber l = some (j, r)) :
    ∃ pre c, l = pre ++ c :: r ∧ c ≠ backtick := by
  unfold parseNumber at h
  revert h
  cases l with
  | nil => intro h; exact Option.noConfusion h
  | cons c rest =>
    intro h
    dsimp only [] at h
    by_cases hm : c = '-'
    · rw [if_pos hm] at h
      dsimp only [] at h
      by_cases he : (rest.takeWhile Char.isDigit).isEmpty = true
      · rw [if_pos he] at h; exact Option.noConfusion h
      rw [if_neg he] at h
      by_cases hz : 1 < (rest.takeWhile Char.isDigit).length ∧
          (rest.takeWhile Char.isDigit).head? = some '0'
      · rw [if_pos hz] at h; exact Option.noConfusion h
      rw [if_neg hz] at h
      revert h
      cases hfp : parseFracPart (rest.dropWhile Char.isDigit) with
      | none => intro h; exact Option.noConfusion h
      | some fr =>
        obtain ⟨fp, r2⟩ := fr
        intro h
        dsimp only [] at h
        revert h
        cases hep : parseExpPart r2 with
        | none => intro h; exact Option.noConfusion h
        | some er =>
          obtain ⟨ep, r3⟩ := er
          intro h
          dsimp only [] at h
          simp only [Option.some.injEq, Prod.mk.injEq] at h
          obtain ⟨_, hr⟩ := h
          obtain ⟨pre, d, hdec, hd⟩ :=
            numTail_consumed (Bool.eq_false_iff.mpr he) hfp (hr ▸ hep)
          exact ⟨c :: pre, d, by rw [hdec]; simp, digit_ne_backtick hd⟩
    · rw [if_neg hm] at h
      dsimp only [] at h
      by_cases he : ((c :: rest).takeWhile Char.isDigit).isEmpty = true
      · rw [if_pos he] at h; exact Option.noConfusion h
      rw [if_neg he] at h
      by_cases hz : 1 < ((c :: rest).takeWhile Char.isDigit).length ∧
          ((c :: rest).takeWhile Char.isDigit).head? = some '0'
      · rw [if_pos hz] at h; exact Option.noConfusion h
      rw [if_neg hz] at h
      revert h
      cases hfp : parseFracPart ((c :: rest).dropWhile Char.isDigit) with
      | none => intro h; exact Option.noConfusion h
      | some fr =>
        obtain ⟨fp, r2⟩ := fr
        intro h
        dsimp only [] at h
        revert h
        cases hep : parseExpPart r2 with
        | none => intro h; exact Option.noConfusion h
        | some er =>
          obtain ⟨ep, r3⟩ := er
          intro h
          dsimp only [] at h
          simp only [Option.some.injEq, Prod.mk.injEq] at h
          obtain ⟨_, hr⟩ := h
          obtain ⟨pre, d, hdec, hd⟩ :=
            numTail_consumed (Bool.eq_false_iff.mpr he) hfp (hr ▸ hep)
          exact ⟨pre, d, hdec, digit_ne_backtick hd⟩

theorem parseNumber_start {c : Char} {tl : Chars} {j : Json} {r : Chars}
    (h : parseNumber (c :: tl) = some (j, r)) : c = '-' ∨ c.isDigit = true := by
  unfold parseNumber at h
  dsimp only [] at h
  by_cases hm : c = '-'
  · exact Or.inl hm
  · right
    rw [if_neg hm] at h
    dsimp only [] at h
    by_cases hd : Char.isDigit c = true
    · exact hd
    · rw [List.takeWhile_cons, if_neg hd] at h
      simp at h

theorem skipWs_decomp {l : Chars} {c : Char} {tl : Chars} (h : skipWs l = c :: tl) :
    l = l.takeWhile isJsonWs ++ (c :: tl) := by
  conv_lhs => rw [← List.takeWhile_append_dropWhile isJsonWs l]
  rw [show l.dropWhile isJsonWs = skipWs l from rfl, h]

theorem consumed_glue {l A m r : Chars} {c0 : Char}
    (hA : l = A ++ c0 :: m) (h : ∃ pre c, m = pre ++ c :: r ∧ c ≠ backtick) :
    ∃ pre c, l = pre ++ c :: r ∧ c ≠ backtick := by
  obtain ⟨pre, c, hm, hc⟩ := h
  exact ⟨A ++ c0 :: pre, c, by rw [hA, hm]; simp, hc⟩

theorem parse_consumed (fuel : Nat) :
    (∀ l j r, parseValue fuel l = some (j, r) →
      ∃ pre c, l = pre ++ c :: r ∧ c ≠ backtick) ∧
    (∀ l acc j r, parseMembers fuel l acc = some (j, r) →
      ∃ pre c, l = pre ++ c :: r ∧ c ≠ backtick) ∧
    (∀ l acc j r, parseElements fuel l acc = some (j, r) →
      ∃ pre c, l = pre ++ c :: r ∧ c ≠ backtick) := by
  induction fuel with
  | zero =>
    exact ⟨fun l j r h => Option.noConfusion h,
      fun l acc j r h => Option.noConfusion h,
      fun l acc j r h => Option.noConfusion h⟩
  | succ fuel ih =>
    obtain ⟨ihV, ihM, ihE⟩ := ih
    refine ⟨?_, ?_, ?_⟩
    · intro l j r h
      unfold parseValue at h
      revert h
      cases hs : skipWs l with
      | nil => intro h; exact Option.noConfusion h
      | cons c tl =>
        intro h
        dsimp only [] at h
        have hldec : l = l.takeWhile isJsonWs ++ (c :: tl) := skipWs_decomp hs
        by_cases h1 : c = lbrace
        · rw [if_pos h1] at h
          revert h
          cases hs2 : skipWs tl with
          | nil => intro h; exact Option.noConfusion h
          | cons c2 tl2 =>
            intro h
            dsimp only [] at h
            have htl : tl = tl.takeWhile isJsonWs ++ (c2 :: tl2) := skipWs_decomp hs2
            by_cases hb : c2 = rbrace
            · rw [if_pos hb] at h
              simp only [Option.some.injEq, Prod.mk.injEq] at h
              obtain ⟨_, hr⟩ := h
              refine consumed_glue hldec ⟨tl.takeWhile isJsonWs, c2, ?_, ?_⟩
              · rw [← hr]; exact htl
              · rw [hb]; decide
            · rw [if_neg hb] at h
              exact consumed_glue hldec (ihM tl [] j r h)
        · rw [if_neg h1] at h
          by_cases h2 : c = '['
          · rw [if_pos h2] at h
            revert h
            cases hs2 : skipWs tl with
            | nil => intro h; exact Option.noConfusion h
            | cons c2 tl2 =>
              intro h
              dsimp only [] at h
              have htl : tl = tl.takeWhile isJsonWs ++ (c2 :: tl2) := skipWs_decomp hs2
              by_cases hb : c2 = ']'
              · rw [if_pos hb] at h
                simp only [Option.some.injEq, Prod.mk.injEq] at h
                obtain ⟨_, hr⟩ := h
                refine consumed_glue hldec ⟨tl.takeWhile isJsonWs, c2, ?_, ?_⟩
                · rw [← hr]; exact htl
                · rw [hb]; decide
              · rw [if_neg hb] at h
                exact consumed_glue hldec (ihE tl [] j r h)
          · rw [if_neg h2] at h
            by_cases h3 : c = '"'
            · rw [if_pos h3] at h
              revert h
              cases hps : parseStringRest fuel tl with
              | none => intro h; exact Option.noConfusion h
              | some sr =>
                obtain ⟨st, r1⟩ := sr
                intro h
                dsimp only [] at h
                simp only [Option.some.injEq, Prod.mk.injEq] at h
                obtain ⟨_, hr⟩ := h
                obtain ⟨p1, hp1⟩ := parseStringRest_consumed fuel tl st r1 hps
                refine consumed_glue hldec ⟨p1, '"', ?_, by decide⟩
                rw [← hr]; exact hp1
            · rw [if_neg h3] at h
              by_cases h4 : pyStartsWith (c :: tl) litTrue = true
              · rw [if_pos h4] at h
                simp only [Option.some.injEq, Prod.mk.injEq] at h
                obtain ⟨_, hr⟩ := h
                have hdec := pyStartsWith_decomp h4
                have hlen : litTrue.length = 4 := rfl
                rw [hlen, hr] at hdec
                refine ⟨l.takeWhile isJsonWs ++ ['t', 'r', 'u'], 'e', ?_, by decide⟩
                conv_lhs => rw [hldec]
                rw [hdec, show litTrue = ['t', 'r', 'u'] ++ ['e'] from rfl]
                simp
              · rw [if_neg h4] at h
                by_cases h5 : pyStartsWith (c :: tl) litFalse = true
                · rw [if_pos h5] at h
                  simp only [Option.some.injEq, Prod.mk.injEq] at h
                  obtain ⟨_, hr⟩ := h
                  have hdec := pyStartsWith_decomp h5
                  have hlen : litFalse.length = 5 := rfl
                  rw [hlen, hr] at hdec
                  refine ⟨l.takeWhile isJsonWs ++ ['f', 'a', 'l', 's'], 'e', ?_, by decide⟩
                  conv_lhs => rw [hldec]
                  rw [hdec, show litFalse = ['f', 'a', 'l', 's'] ++ ['e'] from rfl]
                  simp
                · rw [if_neg h5] at h
                  by_cases h6 : pyStartsWith (c :: tl) litNull = true
                  · rw [if_pos h6] at h
                    simp only [Option.some.injEq, Prod.mk.injEq] at h
                    obtain ⟨_, hr⟩ := h
                    have hdec := pyStartsWith_decomp h6
                    have hlen : litNull.length = 4 := rfl
                    rw [hlen, hr] at hdec
                    refine ⟨l.takeWhile isJsonWs ++ ['n', 'u', 'l'], 'l', ?_, by decide⟩
                    conv_lhs => rw [hldec]
                    rw [hdec, show litNull = ['n', 'u', 'l'] ++ ['l'] from rfl]
                    simp
                  · rw [if_neg h6] at h
                    by_cases h7 : pyStartsWith (c :: tl) litNaN = true
                    · rw [if_pos h7] at h
                      simp only [Option.some.injEq, Prod.mk.injEq] at h
                      obtain ⟨_, hr⟩ := h
                      have hdec := pyStartsWith_decomp h7
                      have hlen : litNaN.length = 3 := rfl
                      rw [hlen, hr] at hdec
                      refine ⟨l.takeWhile isJsonWs ++ ['N', 'a'], 'N', ?_, by decide⟩
                      conv_lhs => rw [hldec]
                      rw [hdec, show litNaN = ['N', 'a'] ++ ['N'] from rfl]
                      simp
                    · rw [if_neg h7] at h
                      by_cases h8 : pyStartsWith (c :: tl) litNegInf = true
                      · rw [if_pos h8] at h
                        simp only [Option.some.injEq, Prod.mk.injEq] at h
                        obtain ⟨_, hr⟩ := h
                        have hdec := pyStartsWith_decomp h8
                        have hlen : litNegInf.length = 9 := rfl
                        rw [hlen, hr] at hdec
                        refine ⟨l.takeWhile isJsonWs ++
                          ['-', 'I', 'n', 'f', 'i', 'n', 'i', 't'], 'y', ?_, by decide⟩
                        conv_lhs => rw [hldec]
                        rw [hdec, show litNegInf =
                          ['-', 'I', 'n', 'f', 'i', 'n', 'i', 't'] ++ ['y'] from rfl]
                        simp
                      · rw [if_neg h8] at h
                        by_cases h9 : pyStartsWith (c :: tl) litInf = true
                        · rw [if_pos h9] at h
                          simp only [Option.some.injEq, Prod.mk.injEq] at h
                          obtain ⟨_, hr⟩ := h
                          have hdec := pyStartsWith_decomp h9
                          have hlen : litInf.length = 8 := rfl
                          rw [hlen, hr] at hdec
                          refine ⟨l.takeWhile isJsonWs ++
                            ['I', 'n', 'f', 'i', 'n', 'i', 't'], 'y', ?_, by decide⟩
                          conv_lhs => rw [hldec]
                          rw [hdec, show litInf =
                            ['I', 'n', 'f', 'i', 'n', 'i', 't'] ++ ['y'] from rfl]
                          simp
                        · rw [if_neg h9] at h
                          obtain ⟨pre, c', hdec, hc'⟩ := parseNumber_consumed h
                          refine ⟨l.takeWhile isJsonWs ++ pre, c', ?_, hc'⟩
                          conv_lhs => rw [hldec]
                          rw [hdec]
                          simp
    · intro l acc j r h
      unfold parseMembers at h
      revert h
      cases hs : skipWs l with
      | nil => intro h; exact Option.noConfusion h
      | cons c tl =>
        intro h
        dsimp only [] at h
        have hldec : l = l.takeWhile isJsonWs ++ (c :: tl) := skipWs_decomp hs
        by_cases h1 : c = '"'
        · rw [if_pos h1] at h
          revert h
          cases hps : parseStringRest fuel tl with
          | none => intro h; exact Option.noConfusion h
          | some kr =>
            obtain ⟨k, r2⟩ := kr
            intro h
            dsimp only [] at h
            obtain ⟨p1, hp1⟩ := parseStringRest_consumed fuel tl k r2 hps
            revert h
            cases hs2 : skipWs r2 with
            | nil => intro h; exact Option.noConfusion h
            | cons c2 r3 =>
              intro h
              dsimp only [] at h
              have hr2dec : r2 = r2.takeWhile isJsonWs ++ (c2 :: r3) := skipWs_decomp hs2
              by_cases h2 : c2 = ':'
              · rw [if_pos h2] at h
                revert h
                cases hpv : parseValue fuel r3 with
                | none => intro h; exact Option.noConfusion h
                | some vr =>
                  obtain ⟨v, r4⟩ := vr
                  intro h
                  dsimp only [] at h
                  obtain ⟨p2, c3, hp2, _⟩ := ihV r3 v r4 hpv
                  revert h
                  cases hs3 : skipWs r4 with
                  | nil => intro h; exact Option.noConfusion h
                  | cons c4 r5 =>
                    intro h
                    dsimp only [] at h
                    have hr4dec : r4 = r4.takeWhile isJsonWs ++ (c4 :: r5) :=
                      skipWs_decomp hs3
                    by_cases h3 : c4 = ','
                    · rw [if_pos h3] at h
                      exact consumed_glue hldec (consumed_glue hp1
                        (consumed_glue hr2dec (consumed_glue hp2
                          (consumed_glue hr4dec (ihM r5 (dInsert acc k v) j r h)))))
                    · rw [if_neg h3] at h
                      by_cases h4 : c4 = rbrace
                      · rw [if_pos h4] at h
                        simp only [Option.some.injEq, Prod.mk.injEq] at h
                        obtain ⟨_, hr⟩ := h
                        refine consumed_glue hldec (consumed_glue hp1
                          (consumed_glue hr2dec (consumed_glue hp2
                            ⟨r4.takeWhile isJsonWs, c4, ?_, ?_⟩)))
                        · rw [← hr]; exact hr4dec
                        · rw [h4]; decide
                      · rw [if_neg h4] at h
                        exact Option.noConfusion h
              · rw [if_neg h2] at h
                exact Option.noConfusion h
        · rw [if_neg h1] at h
          exact Option.noConfusion h
    · intro l acc j r h
      unfold parseElements at h
      revert h
      cases hpv : parseValue fuel l with
      | none => intro h; exact Option.noConfusion h
      | some vr =>
        obtain ⟨v, r1⟩ := vr
        intro h
        dsimp only [] at h
        obtain ⟨p1, c1, hp1, _⟩ := ihV l v r1 hpv
        revert h
        cases hs2 : skipWs r1 with
        | nil => intro h; exact Option.noConfusion h
        | cons c2 r2 =>
          intro h
          dsimp only [] at h
          have hr1dec : r1 = r1.takeWhile isJsonWs ++ (c2 :: r2) := skipWs_decomp hs2
          by_cases h2 : c2 = ','
          · rw [if_pos h2] at h
            exact consumed_glue hp1 (consumed_glue hr1dec
              (ihE r2 (acc ++ [v]) j r h))
          · rw [if_neg h2] at h
            by_cases h3 : c2 = ']'
            · rw [if_pos h3] at h
              simp only [Option.some.injEq, Prod.mk.injEq] at h
              obtain ⟨_, hr⟩ := h
              refine consumed_glue hp1 ⟨r1.takeWhile isJsonWs, c2, ?_, ?_⟩
              · rw [← hr]; exact hr1dec
              · rw [h3]; decide
            · rw [if_neg h3] at h
              exact Option.noConfusion h

theorem parseValue_start {fuel : Nat} {l : Chars} {j : Json} {r : Chars}
    (h : parseValue fuel l = some (j, r)) :
    ∃ c tl, skipWs l = c :: tl ∧ c ≠ backtick ∧ c ≠ 'j' := by
  cases fuel with
  | zero => exact Option.noConfusion h
  | succ fuel =>
    unfold parseValue at h
    revert h
    cases hs : skipWs l with
    | nil => intro h; exact Option.noConfusion h
    | cons c tl =>
      intro h
      dsimp only [] at h
      refine ⟨c, tl, rfl, ?_⟩
      by_cases h1 : c = lbrace
      · subst h1; exact ⟨by decide, by decide⟩
      rw [if_neg h1] at h
      by_cases h2 : c = '['
      · subst h2; exact ⟨by decide, by decide⟩
      rw [if_neg h2] at h
      by_cases h3 : c = '"'
      · subst h3; exact ⟨by decide, by decide⟩
      rw [if_neg h3] at h
      by_cases h4 : pyStartsWith (c :: tl) litTrue = true
      · obtain rfl : c = 't' := pyStartsWith_head h4
        exact ⟨by decide, by decide⟩
      rw [if_neg h4] at h
      by_cases h5 : pyStartsWith (c :: tl) litFalse = true
      · obtain rfl : c = 'f' := pyStartsWith_head h5
        exact ⟨by decide, by decide⟩
      rw [if_neg h5] at h
      by_cases h6 : pyStartsWith (c :: tl) litNull = true
      · obtain rfl : c = 'n' := pyStartsWith_head h6
        exact ⟨by decide, by decide⟩
      rw [if_neg h6] at h
      by_cases h7 : pyStartsWith (c :: tl) litNaN = true
      · obtain rfl : c = 'N' := pyStartsWith_head h7
        exact ⟨by decide, by decide⟩
      rw [if_neg h7] at h
      by_cases h8 : pyStartsWith (c :: tl) litNegInf = true
      · obtain rfl : c = '-' := pyStartsWith_head h8
        exact ⟨by decide, by decide⟩
      rw [if_neg h8] at h
      by_cases h9 : pyStartsWith (c :: tl) litInf = true
      · obtain rfl : c = 'I' := pyStartsWith_head h9
        exact ⟨by decide, by decide⟩
      rw [if_neg h9] at h
      rcases parseNumber_start h with h10 | h10
      · subst h10; exact ⟨by decide, by decide⟩
      · exact ⟨digit_ne_backtick h10, digit_ne_j h10⟩

/-! ### Fence stripping on parsed documents -/

theorem jsonParse_head {l : Chars} {j : Json} (h : jsonParse l = some j)
    (hskip : skipWs l = l) : ∃ c tl, l = c :: tl ∧ c ≠ backtick ∧ c ≠ 'j' := by
  unfold jsonParse at h
  revert h
  cases hpv : parseValue (l.length + 1) l with
  | none => intro h; exact Option.noConfusion h
  | some jr =>
    obtain ⟨j0, rest⟩ := jr
    intro _
    obtain ⟨c, tl, hs, hc⟩ := parseValue_start hpv
    rw [hskip] at hs
    exact ⟨c, tl, hs, hc⟩

theorem jsonParse_getLast {l : Chars} {j : Json} (h : jsonParse l = some j)
    (htrail : ∀ c, l.getLast? = some c → isPySpace c = false) :
    ∃ c, l.getLast? = some c ∧ c ≠ backtick := by
  unfold jsonParse at h
  revert h
  cases hpv : parseValue (l.length + 1) l with
  | none => intro h; exact Option.noConfusion h
  | some jr =>
    obtain ⟨j0, rest⟩ := jr
    intro h
    dsimp only [] at h
    by_cases hemp : (skipWs rest).isEmpty = true
    swap
    · rw [if_neg hemp] at h; exact Option.noConfusion h
    obtain ⟨pre, c', hdec, hc'⟩ := (parse_consumed (l.length + 1)).1 l j0 rest hpv
    have hws : ∀ x ∈ rest, isJsonWs x = true := by
      have hnil : skipWs rest = [] := by
        cases hsw : skipWs rest with
        | nil => rfl
        | cons a b => rw [hsw] at hemp; simp at hemp
      exact List.dropWhile_eq_nil_iff.mp hnil
    cases hrest : rest with
    | cons d dl =>
      obtain ⟨ce, hce⟩ : ∃ ce, (d :: dl).getLast? = some ce := by
        cases hgl : (d :: dl).getLast? with
        | none => exact absurd (List.getLast?_eq_none_iff.mp hgl) (by simp)
        | some ce => exact ⟨ce, rfl⟩
      have hlast : l.getLast? = some ce := by
        rw [hdec, hrest, List.getLast?_append, List.getLast?_cons_cons, hce]
        rfl
      have hmem : ce ∈ rest := by
        rw [hrest]
        exact List.mem_of_mem_getLast? hce
      have := htrail ce hlast
      rw [jsonWs_pySpace (hws ce hmem)] at this
      exact absurd this (by simp)
    | nil =>
      rw [hrest] at hdec
      refine ⟨c', ?_, hc'⟩
      rw [hdec, List.getLast?_append]
      rfl

theorem stripFences_eq_pyStrip {t : Chars} {j : Json}
    (h : jsonParse (pyStrip t) = some j) : stripFences t = pyStrip t := by
  obtain ⟨c, tl, hcons, hcb, hcj⟩ := jsonParse_head h (skipWs_eq_self_of_strip t)
  obtain ⟨ce, hce, hceb⟩ :=
    jsonParse_getLast h (fun c hc => pyStrip_last_not_space hc)
  have hfj : fenceJson = backtick :: [backtick, backtick, 'j', 's', 'o', 'n'] := by decide
  have hfe : fence = backtick :: [backtick, backtick] := by decide
  have h1 : pyStartsWith (pyStrip t) fenceJson = false :=
    not_pyStartsWith_of_head hcons hfj hcb
  have h2 : pyStartsWith (pyStrip t) fence = false :=
    not_pyStartsWith_of_head hcons hfe hcb
  have h3 : pyEndsWith (pyStrip t) fence = false := not_pyEndsWith_fence hce hceb
  unfold stripFences
  dsimp only []
  simp only [h1, h2, h3, Bool.false_eq_true, if_false]
  exact pyStrip_idem t

theorem jsonParse_strip_head {t : Chars} {j : Json}
    (h : jsonParse (pyStrip t) = some j) :
    ∃ c0 t', t = c0 :: t' ∧ c0 ≠ backtick ∧ c0 ≠ 'j' := by
  obtain ⟨c, tl, hcons, hcb, hcj⟩ := jsonParse_head h (skipWs_eq_self_of_strip t)
  have htne : t ≠ [] := by
    intro h0
    rw [h0] at hcons
    simp [pyStrip] at hcons
  obtain ⟨c0, t', ht⟩ : ∃ c0 t', t = c0 :: t' := by
    cases t with
    | nil => exact absurd rfl htne
    | cons a b => exact ⟨a, b, rfl⟩
  refine ⟨c0, t', ht, ?_, ?_⟩
  · intro hb
    have hps : (pyStrip t).head? = some c0 :=
      pyStrip_cons_head ht (by rw [hb]; decide) (by rw [hcons]; simp)
    rw [hcons] at hps
    have : c = c0 := by simpa using hps
    exact hcb (by rw [this, hb])
  · intro hb
    by_cases hsp : isPySpace c0 = true
    · rw [hb] at hsp
      exact absurd hsp (by decide)
    · have hps : (pyStrip t).head? = some c0 :=
        pyStrip_cons_head ht (Bool.eq_false_iff.mpr hsp) (by rw [hcons]; simp)
      rw [hcons] at hps
      have : c = c0 := by simpa using hps
      exact hcj (by rw [this, hb])

theorem stripFences_wrapJson {t : Chars} {j : Json}
    (h : jsonParse (pyStrip t) = some j) :
    stripFences (fenceJson ++ t ++ fence) = pyStrip t := by
  obtain ⟨c0, t', ht, hc0b, _⟩ := jsonParse_strip_head h
  have hfe : fence = backtick :: [backtick, backtick] := by decide
  rw [List.append_assoc]
  have hW : pyStrip (fenceJson ++ (t ++ fence)) = fenceJson ++ (t ++ fence) := by
    apply pyStrip_eq_self
    · intro ch hch
      have hh : (fenceJson ++ (t ++ fence)).head? = some backtick := by
        rw [List.head?_append, show fenceJson.head? = some backtick from by decide]
        rfl
      rw [hh] at hch
      obtain rfl : backtick = ch := by simpa using hch
      decide
    · intro ch hch
      have hl : (fenceJson ++ (t ++ fence)).getLast? = some backtick := by
        rw [← List.append_assoc, List.getLast?_append,
          show fence.getLast? = some backtick from by decide]
        rfl
      rw [hl] at hch
      obtain rfl : backtick = ch := by simpa using hch
      decide
  have hsw1 : pyStartsWith (fenceJson ++ (t ++ fence)) fenceJson = true :=
    pyStartsWith_append_self
  have hdrop7 : pyDrop (fenceJson ++ (t ++ fence)) 7 = t ++ fence := by
    unfold pyDrop
    rw [show (7 : Nat) = fenceJson.length from rfl]
    exact List.drop_left _ _
  have hsw2 : pyStartsWith (t ++ fence) fence = false :=
    not_pyStartsWith_of_head (by rw [ht]; rfl) hfe hc0b
  have hew : pyEndsWith (t ++ fence) fence = true := pyEndsWith_append_self
  have hdropr : pyDropRight (t ++ fence) 3 = t := by
    unfold pyDropRight
    rw [List.length_append, show fence.length = 3 from rfl, Nat.add_sub_cancel]
    exact List.take_left _ _
  unfold stripFences
  dsimp only []
  simp only [hW, hsw1, hdrop7, hsw2, hew, hdropr, Bool.false_eq_true, if_false,
    eq_self_iff_true, if_true]

theorem stripFences_wrapBare {t : Chars} {j : Json}
    (h : jsonParse (pyStrip t) = some j) :
    stripFences (fence ++ t ++ fence) = pyStrip t := by
  obtain ⟨c0, t', ht, hc0b, hc0j⟩ := jsonParse_strip_head h
  have hfe : fence = backtick :: [backtick, backtick] := by decide
  rw [List.append_assoc]
  have hW : pyStrip (fence ++ (t ++ fence)) = fence ++ (t ++ fence) := by
    apply pyStrip_eq_self
    · intro ch hch
      have hh : (fence ++ (t ++ fence)).head? = some backtick := by
        rw [List.head?_append, show fence.head? = some backtick from by decide]
        rfl
      rw [hh] at hch
      obtain rfl : backtick = ch := by simpa using hch
      decide
    · intro ch hch
      have hl : (fence ++ (t ++ fence)).getLast? = some backtick := by
        rw [← List.append_assoc, List.getLast?_append,
          show fence.getLast? = some backtick from by decide]
        rfl
      rw [hl] at hch
      obtain rfl : backtick = ch := by simpa using hch
      decide
  have hsw1 : pyStartsWith (fence ++ (t ++ fence)) fenceJson = false := by
    rw [Bool.eq_false_iff]
    intro hsw
    unfold pyStartsWith at hsw
    rw [decide_eq_true_eq] at hsw
    have htake : List.take 7 (fence ++ (t ++ fence)) =
        fence ++ List.take 4 (t ++ fence) := by
      rw [List.take_append_eq_append_take,
        show List.take 7 fence = fence from by decide,
        show fence.length = 3 from rfl]
    rw [show fenceJson.length = 7 from rfl, htake] at hsw
    have h4 : List.take 4 (t ++ fence) = ['j', 's', 'o', 'n'] := by
      have := congrArg (List.drop 3) hsw
      rwa [List.drop_left' (show fence.length = 3 from rfl),
        show List.drop 3 fenceJson = ['j', 's', 'o', 'n'] from by decide] at this
    rw [ht] at h4
    have : c0 = 'j' := by
      have := congrArg List.head? h4
      simpa [List.take_succ_cons] using this
    exact hc0j this
  have hsw2 : pyStartsWith (fence ++ (t ++ fence)) fence = true :=
    pyStartsWith_append_self
  have hdrop3 : pyDrop (fence ++ (t ++ fence)) 3 = t ++ fence := by
    unfold pyDrop
    rw [show (3 : Nat) = fence.length from rfl]
    exact List.drop_left _ _
  have hew : pyEndsWith (t ++ fence) fence = true := pyEndsWith_append_self
  have hdropr : pyDropRight (t ++ fence) 3 = t := by
    unfold pyDropRight
    rw [List.length_append, show fence.length = 3 from rfl, Nat.add_sub_cancel]
    exact List.take_left _ _
  unfold stripFences
  dsimp only []
  simp only [hW, hsw1, hsw2, hdrop3, hew, hdropr, Bool.false_eq_true, if_false,
    eq_self_iff_true, if_true]

theorem parseResponse_congr {s1 s2 d : Chars}
    (h : stripFences s1 = stripFences s2) :
    parseResponse s1 d = parseResponse s2 d := by
  unfold parseResponse parseResponseInner
  rw [h]

/-! ### Claim theorems -/

/-- C1 (counterexample): the claim as frozen is false on the code.  The raw
text `{"generated_files": 3}` parses, after fence stripping, to a JSON
object, yet `_parse_response` does not succeed: `files_dict.items()` raises
on the numeric member and the call fails with `ValueError`. -/
theorem claim_C1_counterexample :
    jsonParse (stripFences cexGeneratedFilesNumber) =
      some (.obj [(chars "generated_files", .num (chars "3"))]) ∧
    ∀ r, parseResponse cexGeneratedFilesNumber (chars "a description") ≠ .ok r := by
  refine ⟨rfl, fun r h => ?_⟩
  rw [show parseResponse cexGeneratedFilesNumber (chars "a description") =
    .error (.valueError (chars "Failed to parse AI response: " ++
      chars "object has no attribute items")) from rfl] at h
  exact Except.noConfusion h

/-- C1 (amended): for every raw text that, after fence stripping, parses as a
JSON object **whose `generated_files` member, when present, is itself an
object**, and every fallback description, `_parse_response` succeeds and the
result's files contain the four critical keys, each mapped either to a value
taken from the parsed `generated_files` mapping or to its fixed placeholder;
an absent `generated_files` member is treated as the empty mapping. -/
theorem claim_C1 (s d : Chars) (members fd : JDict)
    (hj : jsonParse (stripFences s) = some (.obj members))
    (hgf : (dGet? members keyFiles).getD (.obj []) = .obj fd) :
    ∃ r, parseResponse s d = .ok r ∧
      (∃ v, dGet? r.files keyApp = some v ∧
        ((∃ kr, (kr, v) ∈ fd) ∨ v = .str placeholderApp)) ∧
      (∃ v, dGet? r.files keyModels = some v ∧
        ((∃ kr, (kr, v) ∈ fd) ∨ v = .str placeholderModels)) ∧
      (∃ v, dGet? r.files keyMain = some v ∧
        ((∃ kr, (kr, v) ∈ fd) ∨ v = .str placeholderMain)) ∧
      (∃ v, dGet? r.files keyReadme = some v ∧
        ((∃ kr, (kr, v) ∈ fd) ∨ v = .str placeholderReadme)) := by
  refine ⟨_, parseResponse_ok_of hj hgf, ?_, ?_, ?_, ?_⟩
  · obtain ⟨v, hv⟩ := dGet?_isSome_of_dContains (normalizeFiles_contains_app fd)
    refine ⟨v, hv, ?_⟩
    rcases mem_normalizeFiles (dGet?_mem hv) with h1 | h1 | h1 | h1 | h1
    · exact Or.inl h1
    · exact Or.inr h1.2
    · exact absurd h1.1 keyApp_ne_keyModels
    · exact absurd h1.1 keyApp_ne_keyMain
    · exact absurd h1.1 keyApp_ne_keyReadme
  · obtain ⟨v, hv⟩ := dGet?_isSome_of_dContains (normalizeFiles_contains_models fd)
    refine ⟨v, hv, ?_⟩
    rcases mem_normalizeFiles (dGet?_mem hv) with h1 | h1 | h1 | h1 | h1
    · exact Or.inl h1
    · exact absurd h1.1.symm keyApp_ne_keyModels
    · exact Or.inr h1.2
    · exact absurd h1.1 keyModels_ne_keyMain
    · exact absurd h1.1 keyModels_ne_keyReadme
  · obtain ⟨v, hv⟩ := dGet?_isSome_of_dContains (normalizeFiles_contains_main fd)
    refine ⟨v, hv, ?_⟩
    rcases mem_normalizeFiles (dGet?_mem hv) with h1 | h1 | h1 | h1 | h1
    · exact Or.inl h1
    · exact absurd h1.1.symm keyApp_ne_keyMain
    · exact absurd h1.1.symm keyModels_ne_keyMain
    · exact Or.inr h1.2
    · exact absurd h1.1 keyMain_ne_keyReadme
  · obtain ⟨v, hv⟩ := dGet?_isSome_of_dContains (normalizeFiles_contains_readme fd)
    refine ⟨v, hv, ?_⟩
    rcases mem_normalizeFiles (dGet?_mem hv) with h1 | h1 | h1 | h1 | h1
    · exact Or.inl h1
    · exact absurd h1.1.symm keyApp_ne_keyReadme
    · exact absurd h1.1.symm keyModels_ne_keyReadme
    · exact absurd h1.1.symm keyMain_ne_keyReadme
    · exact Or.inr h1.2

/-- C1 (witness): the amended theorem applied to the concrete input `{}`,
whose `generated_files` member is absent. -/
theorem claim_C1_witness :
    ∃ r, parseResponse (chars "\x7b\x7d") (chars "desc") = .ok r ∧
      (∃ v, dGet? r.files keyApp = some v ∧
        ((∃ kr, (kr, v) ∈ ([] : JDict)) ∨ v = .str placeholderApp)) ∧
      (∃ v, dGet? r.files keyModels = some v ∧
        ((∃ kr, (kr, v) ∈ ([] : JDict)) ∨ v = .str placeholderModels)) ∧
      (∃ v, dGet? r.files keyMain = some v ∧
        ((∃ kr, (kr, v) ∈ ([] : JDict)) ∨ v = .str placeholderMain)) ∧
      (∃ v, dGet? r.files keyReadme = some v ∧
        ((∃ kr, (kr, v) ∈ ([] : JDict)) ∨ v = .str placeholderReadme)) :=
  claim_C1 (chars "\x7b\x7d") (chars "desc") [] [] rfl rfl

/-- C2: for every input text that, after fence stripping, either fails JSON
parsing or parses to a top-level value that does not support key lookup (is
not an object), `_parse_response` fails with `ValueError` (the spec's
`MalformedResponse` kind) — the only error kind the function can surface —
and returns no result. -/
theorem claim_C2 (s d : Chars)
    (h : jsonParse (stripFences s) = none ∨
      ∃ jv, jsonParse (stripFences s) = some jv ∧ isObjJ jv = false) :
    ∃ msg, parseResponse s d = .error (.valueError msg) := by
  rcases h with h | ⟨jv, hj, hno⟩
  · exact ⟨_, parseResponse_error_of_parse_fail h⟩
  · exact ⟨_, parseResponse_error_of_nonobj hj hno⟩

/-- C2 (witness): the bare-array input `[1]` parses but supports no key
lookup; `_parse_response` fails with `ValueError`. -/
theorem claim_C2_witness :
    ∃ msg, parseResponse (chars "[1]") (chars "d") = .error (.valueError msg) :=
  claim_C2 (chars "[1]") (chars "d")
    (Or.inr ⟨Json.arr [Json.num (chars "1")], rfl, rfl⟩)

/-- C3: wrapping a JSON document text in either recognized code-fence marker
(with the `json` language tag or bare) changes nothing: `_parse_response`
returns exactly the same result as on the unwrapped text.  (The newline-padded
variants are instances: `"```json\n" ++ t ++ "\n```"` is
`fenceJson ++ t' ++ fence` for `t' = "\n" ++ t ++ "\n"`, and `pyStrip t'` =
`pyStrip t`.) -/
theorem claim_C3 (t d : Chars) (j : Json) (h : jsonParse (pyStrip t) = some j) :
    parseResponse (fenceJson ++ t ++ fence) d = parseResponse t d ∧
    parseResponse (fence ++ t ++ fence) d = parseResponse t d := by
  have h0 := stripFences_eq_pyStrip h
  exact ⟨parseResponse_congr ((stripFences_wrapJson h).trans h0.symm),
    parseResponse_congr ((stripFences_wrapBare h).trans h0.symm)⟩

/-- C3 (witness): the theorem applied to the concrete document `{}`. -/
theorem claim_C3_witness :
    parseResponse (fenceJson ++ chars "\x7b\x7d" ++ fence) (chars "d") =
      parseResponse (chars "\x7b\x7d") (chars "d") ∧
    parseResponse (fence ++ chars "\x7b\x7d" ++ fence) (chars "d") =
      parseResponse (chars "\x7b\x7d") (chars "d") :=
  claim_C3 (chars "\x7b\x7d") (chars "d") (Json.obj []) rfl

/-- C4: when the parsed `generated_files` mapping contains some accepted
entry-point variant but not the canonical `App.jsx`, normalization maps
`App.jsx` to the content of the first variant key in iteration order, and
every key present in the input keeps its original content (no data loss). -/
theorem claim_C4 (m : JDict) (hnd : (dKeys m).Nodup)
    (happ : dContains m keyApp = false)
    (hvar : ∃ kv, kv ∈ reactVariants ∧ dContains m kv = true) :
    ∃ k, findReactKey m = some k ∧ k ∈ reactVariants ∧
      dGet? (normalizeFiles m) keyApp = dGet? m k ∧
      (dGet? m k).isSome = true ∧
      ∀ k', dContains m k' = true →
        dGet? (normalizeFiles m) k' = dGet? m k' := by
  obtain ⟨kv, hkvmem, hkvc⟩ := hvar
  obtain ⟨k, hk⟩ := findReactKey_isSome hkvmem hkvc
  have hrec := reconcile_app_of_absent hk happ
  obtain ⟨v0, hv0⟩ := dGet?_isSome_of_dContains (findReactKey_contains hk)
  refine ⟨k, hk, findReactKey_mem_variants hk, ?_, by rw [hv0]; rfl,
    fun k' h' => normalizeFiles_get_present hnd h'⟩
  unfold normalizeFiles
  rw [pyCopy_eq_self hnd]
  rw [backfill_get_present ?_]
  · exact hrec
  · apply dContains_of_dGet? (v := v0)
    rw [hrec, hv0]

/-- C4 (witness): the theorem applied to the mapping
`{"app.jsx": "code"}`. -/
theorem claim_C4_witness :
    ∃ k, findReactKey [(chars "app.jsx", Json.str (chars "code"))] = some k ∧
      k ∈ reactVariants ∧
      dGet? (normalizeFiles [(chars "app.jsx", Json.str (chars "code"))]) keyApp =
        dGet? [(chars "app.jsx", Json.str (chars "code"))] k ∧
      (dGet? [(chars "app.jsx", Json.str (chars "code"))] k).isSome = true ∧
      ∀ k', dContains [(chars "app.jsx", Json.str (chars "code"))] k' = true →
        dGet? (normalizeFiles [(chars "app.jsx", Json.str (chars "code"))]) k' =
          dGet? [(chars "app.jsx", Json.str (chars "code"))] k' :=
  claim_C4 [(chars "app.jsx", Json.str (chars "code"))] (by decide) (by decide)
    ⟨chars "app.jsx", by decide, by decide⟩

/-- C5: when the parsed `generated_files` mapping lacks `App.jsx` and every
accepted variant, normalization maps `App.jsx` to its fixed placeholder,
which differs from the `models.py` and `README.md` placeholders; and any key
already present — even with empty-string content — is never overwritten
(presence, not truthiness, gates backfill). -/
theorem claim_C5 (m : JDict) (hnd : (dKeys m).Nodup)
    (hvars : ∀ kv ∈ reactVariants, dContains m kv = false) :
    dGet? (normalizeFiles m) keyApp = some (.str placeholderApp) ∧
    placeholderApp ≠ placeholderModels ∧
    placeholderApp ≠ placeholderReadme ∧
    ∀ k, dContains m k = true → dGet? (normalizeFiles m) k = dGet? m k := by
  have happ : dContains m keyApp = false := hvars keyApp (by decide)
  have hfr : findReactKey m = none := findReactKey_eq_none hvars
  have hrec : reconcileReact m = m := by unfold reconcileReact; rw [hfr]
  refine ⟨?_, by decide, by decide, fun k h => normalizeFiles_get_present hnd h⟩
  unfold normalizeFiles
  rw [pyCopy_eq_self hnd, hrec]
  exact backfill_get_app_absent happ

/-- C5 (witness): the theorem applied to the mapping
`{"models.py": ""}`, whose empty-string content survives backfill. -/
theorem claim_C5_witness :
    dGet? (normalizeFiles [(keyModels, Json.str [])]) keyApp =
      some (.str placeholderApp) ∧
    placeholderApp ≠ placeholderModels ∧
    placeholderApp ≠ placeholderReadme ∧
    ∀ k, dContains [(keyModels, Json.str [])] k = true →
      dGet? (normalizeFiles [(keyModels, Json.str [])]) k =
        dGet? [(keyModels, Json.str [])] k :=
  claim_C5 [(keyModels, Json.str [])] (by decide) (by decide)

/-- C6: normalization is idempotent on its own output: feeding a successful
result back in as a fresh payload — `analysis_summary` present and
`generated_files` exactly the result's file map — reproduces the identical
result, with no second placeholder insertion and no key or value change. -/
theorem claim_C6 (s d : Chars) (r : AnalysisResult)
    (h : parseResponse s d = .ok r) :
    extractResult (.obj [(keySummary, r.summary), (keyFiles, .obj r.files)]) d =
      .ok r := by
  obtain ⟨data, hj, hex⟩ := parseResponseInner_ok (parseResponse_ok_inner h)
  obtain ⟨members, fd, hdata, hgf, hr⟩ := extractResult_ok hex
  obtain ⟨rsum, rfiles⟩ := r
  simp only [AnalysisResult.mk.injEq] at hr
  obtain ⟨h1, h2⟩ := hr
  have hcomp : extractResult
      (.obj [(keySummary, rsum), (keyFiles, .obj rfiles)]) d =
      .ok ⟨rsum, normalizeFiles rfiles⟩ := rfl
  rw [hcomp, h2, normalizeFiles_idem]

/-- C6 (witness): the theorem applied to the result of normalizing `{}`. -/
theorem claim_C6_witness :
    extractResult (.obj [(keySummary,
        (AnalysisResult.mk (.str (chars "Generated application based on: desc"))
          [(keyApp, .str placeholderApp), (keyModels, .str placeholderModels),
           (keyMain, .str placeholderMain), (keyReadme, .str placeholderReadme)]).summary),
      (keyFiles, .obj
        (AnalysisResult.mk (.str (chars "Generated application based on: desc"))
          [(keyApp, .str placeholderApp), (keyModels, .str placeholderModels),
           (keyMain, .str placeholderMain), (keyReadme, .str placeholderReadme)]).files)])
      (chars "desc") =
    .ok (AnalysisResult.mk (.str (chars "Generated application based on: desc"))
      [(keyApp, .str placeholderApp), (keyModels, .str placeholderModels),
       (keyMain, .str placeholderMain), (keyReadme, .str placeholderReadme)]) :=
  claim_C6 (chars "\x7b\x7d") (chars "desc") _ rfl

/-- C7: the spec's end-to-end example: description `"A task tracker"` and the
fenced JSON text with summary `"s"` and one file `app.jsx ↦ "code"` yield
summary `"s"`, `App.jsx` and `app.jsx` both mapped to `"code"`, and the three
backend placeholders. -/
theorem claim_C7 :
    ∃ r, parseResponse exampleRawText exampleDescription = .ok r ∧
      r.summary = .str (chars "s") ∧
      dGet? r.files keyApp = some (.str (chars "code")) ∧
      dGet? r.files (chars "app.jsx") = some (.str (chars "code")) ∧
      dGet? r.files keyModels = some (.str placeholderModels) ∧
      dGet? r.files keyMain = some (.str placeholderMain) ∧
      dGet? r.files keyReadme = some (.str placeholderReadme) :=
  ⟨⟨.str (chars "s"),
    [(chars "app.jsx", .str (chars "code")), (keyApp, .str (chars "code")),
     (keyModels, .str placeholderModels), (keyMain, .str placeholderMain),
     (keyReadme, .str placeholderReadme)]⟩,
   rfl, rfl, rfl, rfl, rfl, rfl, rfl⟩

/-- C8: `get_example "food-pantry"` returns the pre-built fixture, whose file
map already carries all four critical keys without any normalization pass;
every identifier outside the fixed three fails with `ValueError` (the spec's
`NotFound`); and `list_examples` returns exactly the three identifiers. -/
theorem claim_C8 :
    (∃ r, getExample idFoodPantry = .ok r ∧ dContains r.files keyApp = true ∧
      dContains r.files keyModels = true ∧ dContains r.files keyMain = true ∧
      dContains r.files keyReadme = true) ∧
    (∀ exid, exid ∉ listExamples →
      ∃ msg, getExample exid = .error (.valueError msg)) ∧
    listExamples = [idFoodPantry, idLibrary, idClinic] := by
  refine ⟨⟨foodPantryResult, rfl, rfl, rfl, rfl, rfl⟩, ?_, rfl⟩
  intro exid hmem
  unfold getExample
  cases hg : dGet? EXAMPLES exid with
  | none => exact ⟨_, rfl⟩
  | some r =>
    exact absurd (show exid ∈ listExamples from
      List.mem_map.mpr ⟨(exid, r), dGet?_mem hg, rfl⟩) hmem

/-- C8 (witness): the unknown identifier `"unknown-id"` fails with
`ValueError`. -/
theorem claim_C8_witness :
    ∃ msg, getExample (chars "unknown-id") = .error (.valueError msg) :=
  claim_C8.2.1 (chars "unknown-id") (by decide)

/-- C9: `_parse_response` is deterministic — two invocations on the identical
input pair are the same value of a pure function — and the entry-point
tie-break is exactly the first key, in the mapping's iteration order, that is
an accepted variant. -/
theorem claim_C9 :
    (∀ s d : Chars, parseResponse s d = parseResponse s d) ∧
    (∀ m : JDict, findReactKey m =
      (dKeys m).find? (fun k => decide (k ∈ reactVariants))) := by
  refine ⟨fun s d => rfl, fun m => ?_⟩
  unfold findReactKey dKeys
  rw [List.find?_map]
  rfl

/-- C10: normalization never deletes or rewrites an entry of the parsed
`generated_files` mapping: every key present keeps exactly its input value,
character for character; normalization only ever adds keys. -/
theorem claim_C10 (m : JDict) (hnd : (dKeys m).Nodup) :
    ∀ k v, dGet? m k = some v → dGet? (normalizeFiles m) k = some v := by
  intro k v h
  rw [normalizeFiles_get_present hnd (dContains_of_dGet? h)]
  exact h

/-- C10 (witness): the theorem applied to a one-entry mapping with
non-ASCII content. -/
theorem claim_C10_witness :
    dGet? (normalizeFiles [(chars "note.txt", Json.str (chars "héllo ✓"))])
      (chars "note.txt") = some (Json.str (chars "héllo ✓")) :=
  claim_C10 [(chars "note.txt", Json.str (chars "héllo ✓"))] (by decide)
    (chars "note.txt") (Json.str (chars "héllo ✓")) rfl

end SpecProof
